import Mathlib

/-!
Shallow embedding of the stract webgraph core (crates/core/src/webgraph/):
the two k-way merge iterators from `merge.rs` (`MergeIter`, `EdgeMerger`),
the query pipeline of the `Webgraph` façade from `mod.rs`
(`outgoing_edges` and friends: per-segment lookup, concatenation, dedup by
neighbor id, sort by sort key, `EdgeLimit::apply`), and the administrative
operations (`merge`, `merge_all_segments`, `Meta::open`, `Meta::save`).

Machine integers (u64/u128 node ids and sort keys, u32 counts) are modelled
as `Nat`: the code only compares them, never does arithmetic that could
overflow.  Iterators are modelled as lists; the two merge loops, which the
source drives off a `BinaryHeap<Reverse<Peekable<_>>>`, are modelled by a
deterministic pop-the-minimum-head function on a list of lists.  The heap
compares entries by their head element only (`file_store::Peekable` is not
among the provided sources; the spec states the comparison is by head
element, exhausted iterators ordering last); which of several minimal heads
the real heap surfaces first is unspecified, the model takes the first.
-/

set_option linter.unusedVariables false

namespace Stract

/-- `NodeID`: fingerprint of a node (an unsigned machine integer in the
source), modelled as `Nat`; the code only ever compares ids. -/
abbrev NodeID := Nat

/-- `RelFlags`: bitset of rel-attribute bits; opaque to everything modelled
here, carried through unchanged. -/
abbrev RelFlags := Nat

/-- `NodeDatum` from `merge.rs`: neighbor id plus the node-level sort key. -/
structure NodeDatum where
  id : NodeID
  sort_key : Nat
deriving Repr, DecidableEq

/-- The `Ord` impl of `NodeDatum` in `merge.rs`:
`sort_key.cmp(..).then_with(|| id.cmp(..))`, i.e. `(sort_key, id)`
lexicographic, here as a boolean `≤`. -/
def NodeDatum.le (a b : NodeDatum) : Bool :=
  Nat.blt a.sort_key b.sort_key || (a.sort_key == b.sort_key && Nat.ble a.id b.id)

/-- `EdgeRange` from `store.rs` as used by `merge.rs`: a byte range into the
edge blob plus an entry count. -/
structure EdgeRange where
  start : Nat
  stop : Nat
  count : Nat
deriving Repr, DecidableEq

/-- `StoredEdge<L>`: an edge as persisted inside a segment — the neighbor
datum, the label and the rel flags (`edge.rs` is not among the provided
sources; the field list follows the spec section 3 and the uses in
`merge.rs`). -/
structure StoredEdge (L : Type) where
  other : NodeDatum
  label : L
  rel : RelFlags
deriving Repr, DecidableEq

/-- The `Ord` impl of `StoredEdge` in `merge.rs`: comparison is by `other`
alone. -/
def StoredEdge.le {L : Type} (a b : StoredEdge L) : Bool :=
  NodeDatum.le a.other b.other

/-- `MergeNode` from `merge.rs`: node id, edge range, label range and the
segment ordinal tag (`MergeSegmentOrd`, a `usize`). -/
structure MergeNode where
  node : NodeID
  range : EdgeRange
  labels_start : Nat
  labels_stop : Nat
  ord : Nat
deriving Repr, DecidableEq

/-- The `Ord` impl of `MergeNode` in `merge.rs`: comparison is by `node`
only (nodes in the fst are sorted by their id, not by their sort key). -/
def MergeNode.le (a b : MergeNode) : Bool :=
  Nat.ble a.node b.node

/-- Total number of elements remaining across all input iterators. -/
def totalLen {α : Type} (st : List (List α)) : Nat :=
  (st.map List.length).sum

/-- One step of the min-heap of peekable iterators: pop the head of the
input whose head is `le`-minimal (exhausted inputs order last; among equal
heads the model takes the first input).  Returns `none` exactly when every
input is exhausted. -/
def popMinHead {α : Type} (le : α → α → Bool) :
    List (List α) → Option (α × List (List α))
  | [] => none
  | [] :: rest => (popMinHead le rest).map (fun p => (p.1, [] :: p.2))
  | (x :: t) :: rest =>
    match popMinHead le rest with
    | none => some (x, t :: rest)
    | some (y, st) =>
      if le x y then some (x, t :: rest) else some (y, (x :: t) :: st)

/-- The drain loop inside `MergeIter::advance`: while the heap-minimal head
has the same `node`, pop it into the buffer.  `fuel` bounds the iteration
count; `totalLen st` always suffices since every round consumes one
element. -/
def mergeDrain (fuel : Nat) (node : NodeID) (st : List (List MergeNode)) :
    List MergeNode × List (List MergeNode) :=
  match fuel with
  | 0 => ([], st)
  | fuel + 1 =>
    match popMinHead MergeNode.le st with
    | none => ([], st)
    | some (x, st') =>
      if x.node = node then
        let r := mergeDrain fuel node st'
        (x :: r.1, r.2)
      else ([], st)

/-- `MergeIter::advance` from `merge.rs`: clear the buffer, pop the minimum
head, then drain every further head with the same node id into the buffer.
Returns the `bool` result, the new buffer contents and the advanced
state. -/
def MergeIter.advance (st : List (List MergeNode)) :
    Bool × List MergeNode × List (List MergeNode) :=
  match popMinHead MergeNode.le st with
  | none => (false, [], st)
  | some (x, st') =>
    let r := mergeDrain (totalLen st') x.node st'
    (true, x :: r.1, r.2)

/-- The drop loop inside `EdgeMerger::next`: while the heap-minimal head has
the same `other.sort_key`, pop and discard it. -/
def edgeDrop {L : Type} (fuel : Nat) (k : Nat)
    (st : List (List (StoredEdge L))) : List (List (StoredEdge L)) :=
  match fuel with
  | 0 => st
  | fuel + 1 =>
    match popMinHead StoredEdge.le st with
    | none => st
    | some (x, st') =>
      if x.other.sort_key = k then edgeDrop fuel k st' else st

/-- `EdgeMerger::next` from `merge.rs`: pop the minimal edge, then drop every
further head whose `other.sort_key` equals its sort key. -/
def EdgeMerger.next {L : Type} (st : List (List (StoredEdge L))) :
    Option (StoredEdge L × List (List (StoredEdge L))) :=
  match popMinHead StoredEdge.le st with
  | none => none
  | some (e, st') => some (e, edgeDrop (totalLen st') e.other.sort_key st')

/-- The full merged sequence produced by iterating `EdgeMerger::next` to
exhaustion (`fuel` bounds the number of emitted edges; `totalLen st`
suffices). -/
def EdgeMerger.run {L : Type} (fuel : Nat) (st : List (List (StoredEdge L))) :
    List (StoredEdge L) :=
  match fuel with
  | 0 => []
  | fuel + 1 =>
    match EdgeMerger.next st with
    | none => []
    | some (e, st') => e :: EdgeMerger.run fuel st'

/-- `EdgeLimit` from `mod.rs`. -/
inductive EdgeLimit where
  | unlimited
  | limit (n : Nat)
deriving Repr, DecidableEq

/-- `EdgeLimit::apply` from `mod.rs`: `Unlimited` passes the sequence
through, `Limit(n)` takes the first `n` elements. -/
def EdgeLimit.apply {α : Type} (lim : EdgeLimit) (l : List α) : List α :=
  match lim with
  | .unlimited => l
  | .limit n => l.take n

/-- `SegmentEdge<L>`: the per-segment query result record as used in
`mod.rs` (`e.from.node()`, `e.from.sort_key()`, `e.to`, `e.label`, `e.rel`;
`edge.rs` is not among the provided sources, the field list follows those
uses and the spec).  `from` is a Lean keyword, hence `from_`. -/
structure SegmentEdge (L : Type) where
  from_ : NodeDatum
  to_ : NodeDatum
  label : L
  rel : RelFlags
deriving Repr, DecidableEq

/-- Rust's stable `sort_by` / `sort_by_key`, modelled as insertion sort with
a boolean comparator (`insertSorted` places the new element before the first
position whose element is not strictly below it, which preserves the
relative order of elements the comparator cannot distinguish — the
stability contract of Rust's sorts). -/
def insertSorted {α : Type} (le : α → α → Bool) (a : α) : List α → List α
  | [] => [a]
  | b :: t => if le a b then a :: b :: t else b :: insertSorted le a t

/-- Stable sort with a boolean comparator (see `insertSorted`). -/
def isort {α : Type} (le : α → α → Bool) : List α → List α
  | [] => []
  | a :: t => insertSorted le a (isort le t)

/-- Helper for `rdedup`: `a` is the last kept element. -/
def rdedupAfter {α : Type} (f : α → Nat) (a : α) : List α → List α
  | [] => []
  | b :: t => if f a = f b then rdedupAfter f a t else b :: rdedupAfter f b t

/-- Rust's `Vec::dedup_by_key`: remove all but the first of every run of
consecutive elements with the same key. -/
def rdedup {α : Type} (f : α → Nat) : List α → List α
  | [] => []
  | a :: t => a :: rdedupAfter f a t

/-- Modelled from the spec: the per-segment adjacency lookup
(`Segment::outgoing_edges_with_label`; `segment.rs`/`store.rs` are not among
the provided sources).  Spec section 4.3: locate the node's adjacency list —
already sorted by `NodeDatum` — and decode up to `limit` entries (all if
unlimited).  `adj` is the stored adjacency list of the queried node in this
segment. -/
def Segment.outgoing_edges_with_label {L : Type} (adj : List (SegmentEdge L))
    (lim : EdgeLimit) : List (SegmentEdge L) :=
  lim.apply adj

/-- The dedup closure of `Webgraph::outgoing_edges` in `mod.rs`:
`edges.sort_by_key(|e| e.to.node()); edges.dedup_by_key(|e| e.to.node())`. -/
def Webgraph.dedupOutgoing {L : Type} (edges : List (SegmentEdge L)) :
    List (SegmentEdge L) :=
  rdedup (fun e => e.to_.id) (isort (fun a b => Nat.ble a.to_.id b.to_.id) edges)

/-- `Webgraph::inner_edges` from `mod.rs`, instantiated with the outgoing
loader: fan out over the segments (the executor preserves segment order when
gathering), flatten, then apply the dedup closure.  Each element of `segs`
is the queried node's adjacency list in one segment. -/
def Webgraph.innerEdgesOutgoing {L : Type} (segs : List (List (SegmentEdge L)))
    (lim : EdgeLimit) : List (SegmentEdge L) :=
  Webgraph.dedupOutgoing
    ((segs.map (fun s => Segment.outgoing_edges_with_label s lim)).flatten)

/-- `Webgraph::outgoing_edges` up to (excluding) the final conversion step:
inner edges, re-sorted by `|a, b| a.to_.sort_key().cmp(&b.to_.sort_key())`,
then `limit.apply`. -/
def Webgraph.outgoingStored {L : Type} (segs : List (List (SegmentEdge L)))
    (lim : EdgeLimit) : List (SegmentEdge L) :=
  lim.apply
    (isort (fun a b => Nat.ble a.to_.sort_key b.to_.sort_key)
      (Webgraph.innerEdgesOutgoing segs lim))

/-- `Node`: canonical string form of a page or host. -/
abbrev Node := String

/-- `FullEdge` as produced by the non-raw query variants. -/
structure FullEdge where
  from_ : Node
  to_ : Node
  label : String
deriving Repr, DecidableEq

/-- `Id2NodeDb::get`, modelled over an association list of the rows of the
id↔node store. -/
def id2nodeGet (db : List (NodeID × Node)) (i : NodeID) : Option Node :=
  (db.find? (fun kv => kv.1 == i)).map (fun kv => kv.2)

/-- Collect a fallible conversion over a list, stopping at the first
failure: the shape of a `map(..).collect()` whose body can panic, with the
panic modelled as `none`. -/
def optionMap {α β : Type} (f : α → Option β) : List α → Option (List β)
  | [] => some []
  | a :: t => (f a).bind fun b => (optionMap f t).map fun r => b :: r

/-- The final conversion step of `Webgraph::outgoing_edges`: resolve both
endpoints through `id2node` and build `FullEdge`s.  The source unwraps both
lookups (`self.id2node(..).unwrap()`); a failed lookup panics, modelled as
`none`. -/
def Webgraph.outgoing_edges (db : List (NodeID × Node))
    (segs : List (List (SegmentEdge String))) (lim : EdgeLimit) :
    Option (List FullEdge) :=
  optionMap (fun e =>
    (id2nodeGet db e.from_.id).bind fun f =>
      (id2nodeGet db e.to_.id).map fun t =>
        { from_ := f, to_ := t, label := e.label })
    (Webgraph.outgoingStored segs lim)

/-- A JSON document, for modelling `serde_json`. Numbers are kept as their
raw text: the code under study never reads one back. -/
inductive Json where
  | null
  | bool (b : Bool)
  | num (raw : String)
  | str (s : String)
  | arr (xs : List Json)
  | obj (fields : List (String × Json))

/-- Lower-case hex digit, as emitted by `serde_json` control escapes. -/
def hexDigit (n : Nat) : Char :=
  if n < 10 then Char.ofNat (48 + n) else Char.ofNat (87 + n)

/-- `serde_json` string escaping: quote, backslash, the short control
escapes, and `\u00XX` for the remaining control characters. -/
def escChar (c : Char) : List Char :=
  if c = '"' then ['\\', '"']
  else if c = '\\' then ['\\', '\\']
  else if c = '\n' then ['\\', 'n']
  else if c = '\r' then ['\\', 'r']
  else if c = '\t' then ['\\', 't']
  else if c = '\x08' then ['\\', 'b']
  else if c = '\x0c' then ['\\', 'f']
  else if c.toNat < 32 then
    ['\\', 'u', '0', '0', hexDigit (c.toNat / 16), hexDigit (c.toNat % 16)]
  else [c]

/-- Quote and escape a string as a JSON string literal. -/
def jsonQuote (s : String) : String :=
  "\"" ++ String.mk (s.data.flatMap escChar) ++ "\""

/-- Newline followed by `d` levels of the two-space indent used by
`serde_json::to_string_pretty`. -/
def nlIndent (d : Nat) : String :=
  "\n" ++ String.join (List.replicate d "  ")

mutual

/-- `serde_json::to_string_pretty`: two-space indent, `": "` separators,
empty containers inline. -/
def jsonPretty (d : Nat) : Json → String
  | .null => "null"
  | .bool b => if b then "true" else "false"
  | .num raw => raw
  | .str s => jsonQuote s
  | .arr [] => "[]"
  | .arr (x :: xs) =>
    "[" ++ nlIndent (d + 1) ++ jsonPretty (d + 1) x ++
      jsonPrettyArr (d + 1) xs ++ nlIndent d ++ "]"
  | .obj [] => "\x7b\x7d"
  | .obj ((k, v) :: kvs) =>
    "\x7b" ++ nlIndent (d + 1) ++ jsonQuote k ++ ": " ++ jsonPretty (d + 1) v ++
      jsonPrettyObj (d + 1) kvs ++ nlIndent d ++ "\x7d"

/-- Remaining array elements, each preceded by a comma and fresh line. -/
def jsonPrettyArr (d : Nat) : List Json → String
  | [] => ""
  | x :: xs => "," ++ nlIndent d ++ jsonPretty d x ++ jsonPrettyArr d xs

/-- Remaining object entries, each preceded by a comma and fresh line. -/
def jsonPrettyObj (d : Nat) : List (String × Json) → String
  | [] => ""
  | (k, v) :: kvs =>
    "," ++ nlIndent d ++ jsonQuote k ++ ": " ++ jsonPretty d v ++ jsonPrettyObj d kvs

end

/-- The keys of a top-level JSON object. -/
def Json.objKeys : Json → List String
  | .obj fields => fields.map (fun kv => kv.1)
  | _ => []

/-- JSON whitespace. -/
def isWs (c : Char) : Bool :=
  c = ' ' || c = '\n' || c = '\t' || c = '\r'

/-- Skip leading JSON whitespace. -/
def skipWs : List Char → List Char
  | [] => []
  | c :: t => if isWs c then skipWs t else c :: t

/-- ASCII digit test. -/
def isDigit (c : Char) : Bool :=
  '0' ≤ c && c ≤ '9'

/-- Split off the leading run of ASCII digits. -/
def takeDigits : List Char → List Char × List Char
  | [] => ([], [])
  | c :: t =>
    if isDigit c then
      let r := takeDigits t
      (c :: r.1, r.2)
    else ([], c :: t)

/-- Hex digit value. -/
def hexVal (c : Char) : Option Nat :=
  if '0' ≤ c && c ≤ '9' then some (c.toNat - 48)
  else if 'a' ≤ c && c ≤ 'f' then some (c.toNat - 87)
  else if 'A' ≤ c && c ≤ 'F' then some (c.toNat - 55)
  else none

/-- Decode a single-character JSON escape. -/
def unescChar (e : Char) : Option Char :=
  if e = '"' then some '"'
  else if e = '\\' then some '\\'
  else if e = '/' then some '/'
  else if e = 'n' then some '\n'
  else if e = 't' then some '\t'
  else if e = 'r' then some '\r'
  else if e = 'b' then some '\x08'
  else if e = 'f' then some '\x0c'
  else none

/-- Parse the body of a JSON string literal (after the opening quote) up to
and including the closing quote; returns the decoded characters and the
rest of the input. -/
def parseStrAux : List Char → Option (List Char × List Char)
  | [] => none
  | c :: t =>
    if c = '"' then some ([], t)
    else if c = '\\' then
      match t with
      | [] => none
      | e :: t' =>
        if e = 'u' then
          match t' with
          | h1 :: h2 :: h3 :: h4 :: t'' =>
            (hexVal h1).bind fun v1 =>
              (hexVal h2).bind fun v2 =>
                (hexVal h3).bind fun v3 =>
                  (hexVal h4).bind fun v4 =>
                    (parseStrAux t'').map fun r =>
                      (Char.ofNat (((v1 * 16 + v2) * 16 + v3) * 16 + v4) :: r.1, r.2)
          | _ => none
        else
          (unescChar e).bind fun ch =>
            (parseStrAux t').map fun r => (ch :: r.1, r.2)
    else (parseStrAux t).map fun r => (c :: r.1, r.2)

/-- Parse an optional JSON fraction part, returning its raw text. -/
def parseFrac : List Char → Option (List Char × List Char)
  | '.' :: t =>
    match takeDigits t with
    | ([], _) => none
    | (ds, r) => some ('.' :: ds, r)
  | cs => some ([], cs)

/-- Parse an optional JSON exponent part, returning its raw text. -/
def parseExp : List Char → Option (List Char × List Char)
  | [] => some ([], [])
  | c :: t =>
    if c = 'e' || c = 'E' then
      let p := match t with
        | s :: t' => if s = '+' || s = '-' then ([s], t') else (([] : List Char), t)
        | [] => (([] : List Char), ([] : List Char))
      match takeDigits p.2 with
      | ([], _) => none
      | (ds, r) => some (c :: (p.1 ++ ds), r)
    else some ([], c :: t)

/-- Parse a JSON number, keeping its raw text. -/
def parseNumber (cs : List Char) : Option (Json × List Char) :=
  let p := match cs with
    | '-' :: t => (['-'], t)
    | _ => (([] : List Char), cs)
  match takeDigits p.2 with
  | ([], _) => none
  | (ds, rest) =>
    (parseFrac rest).bind fun fr =>
      (parseExp fr.2).bind fun er =>
        some (.num (String.mk (p.1 ++ ds ++ fr.1 ++ er.1)), er.2)

mutual

/-- A JSON value parser modelling `serde_json::from_str`'s grammar.  `fuel`
bounds the recursion depth; every recursive call happens after at least one
input character was consumed, so `input length + 1` always suffices. -/
def parseValue : Nat → List Char → Option (Json × List Char)
  | 0, _ => none
  | fuel + 1, cs =>
    match skipWs cs with
    | [] => none
    | c :: t =>
      if c = 'n' then
        match t with
        | 'u' :: 'l' :: 'l' :: r => some (.null, r)
        | _ => none
      else if c = 't' then
        match t with
        | 'r' :: 'u' :: 'e' :: r => some (.bool true, r)
        | _ => none
      else if c = 'f' then
        match t with
        | 'a' :: 'l' :: 's' :: 'e' :: r => some (.bool false, r)
        | _ => none
      else if c = '"' then
        (parseStrAux t).map fun r => (.str (String.mk r.1), r.2)
      else if c = '[' then
        match skipWs t with
        | ']' :: r => some (.arr [], r)
        | t' => (parseValue fuel t').bind fun vr => parseArrTail fuel [vr.1] vr.2
      else if c = '\x7b' then
        match skipWs t with
        | '\x7d' :: r => some (.obj [], r)
        | t' => (parseEntry fuel t').bind fun er => parseObjTail fuel [er.1] er.2
      else parseNumber (c :: t)

/-- Parse one `"key": value` object entry. -/
def parseEntry : Nat → List Char → Option ((String × Json) × List Char)
  | 0, _ => none
  | fuel + 1, cs =>
    match skipWs cs with
    | '"' :: t =>
      (parseStrAux t).bind fun kr =>
        match skipWs kr.2 with
        | ':' :: r =>
          (parseValue fuel r).map fun vr => ((String.mk kr.1, vr.1), vr.2)
        | _ => none
    | _ => none

/-- Parse the rest of an array after its first element. -/
def parseArrTail : Nat → List Json → List Char → Option (Json × List Char)
  | 0, _, _ => none
  | fuel + 1, acc, cs =>
    match skipWs cs with
    | ',' :: r => (parseValue fuel r).bind fun vr => parseArrTail fuel (vr.1 :: acc) vr.2
    | ']' :: r => some (.arr acc.reverse, r)
    | _ => none

/-- Parse the rest of an object after its first entry. -/
def parseObjTail : Nat → List (String × Json) → List Char → Option (Json × List Char)
  | 0, _, _ => none
  | fuel + 1, acc, cs =>
    match skipWs cs with
    | ',' :: r => (parseEntry fuel r).bind fun er => parseObjTail fuel (er.1 :: acc) er.2
    | '\x7d' :: r => some (.obj acc.reverse, r)
    | _ => none

end

/-- `Meta` from `mod.rs`: the list of committed segment ids, with the field
name spelled exactly as the struct declares it (one `m`, no serde rename
attribute). -/
structure Meta where
  comitted_segments : List String
deriving Repr, DecidableEq

/-- The serde `Serialize` derive on `Meta`: a one-field object whose key is
the field name verbatim. -/
def Meta.serializeJson (m : Meta) : Json :=
  .obj [("comitted_segments", .arr (m.comitted_segments.map .str))]

/-- `Meta::save` from `mod.rs`, as the string written to `metadata.json`:
`serde_json::to_string_pretty(&self).unwrap()`. -/
def Meta.save (m : Meta) : String :=
  jsonPretty 0 (Meta.serializeJson m)

/-- Extract a JSON string, as the serde `Deserialize` of a `String` field
element does. -/
def Json.asStr : Json → Option String
  | .str s => some s
  | _ => none

/-- The serde `Deserialize` derive on `Meta` applied to a parsed document:
the value must be an object, unknown fields are ignored, the
`comitted_segments` field must be present exactly once (serde errors on a
duplicate field) and hold an array of strings. -/
def metaOfJson : Json → Option Meta
  | .obj fields =>
    match fields.filter (fun kv => kv.1 == "comitted_segments") with
    | [kv] =>
      match kv.2 with
      | .arr xs => (xs.mapM Json.asStr).map Meta.mk
      | _ => none
    | _ => none
  | _ => none

/-- `serde_json::from_str::<Meta>`: parse one JSON document (trailing
whitespace allowed, trailing garbage is an error) and run the derived
deserializer.  Returns `none` on any parse or shape error. -/
def metaFromStr (s : String) : Option Meta :=
  match parseValue (s.data.length + 1) s.data with
  | some (j, rest) =>
    if (skipWs rest).isEmpty then metaOfJson j else none
  | none => none

/-- `Meta::open` from `mod.rs`: open-or-create the file (a missing file
reads back as the empty string), read it to a string, then
`serde_json::from_str(&buf).unwrap_or_default()`.  `content` is the file's
current content, `none` when the file does not exist. -/
def Meta.open_ (content : Option String) : Meta :=
  (metaFromStr (content.getD "")).getD ⟨[]⟩

/-- A filesystem path, as its list of components. -/
abbrev FsPath := List String

/-- `p` is `q` itself or an ancestor of `q`. -/
def underDir (p q : FsPath) : Bool :=
  match p, q with
  | [], _ => true
  | _, [] => false
  | a :: p', b :: q' => a == b && underDir p' q'

/-- The directories and regular files visible to the modelled operations.
Directory entries include every directory of a subtree, so a rename or a
recursive delete is a rewrite of the paths under its source. -/
structure World where
  dirs : List FsPath
  files : List (FsPath × String)

/-- `std::fs::rename(src, dst)`: every path under `src` reappears under
`dst`. -/
def World.rename (src dst : FsPath) (w : World) : World :=
  { dirs := w.dirs.map (fun p =>
      if underDir src p then dst ++ p.drop src.length else p),
    files := w.files.map (fun f =>
      if underDir src f.1 then (dst ++ f.1.drop src.length, f.2) else f) }

/-- `std::fs::remove_dir_all(p)`: drop the whole subtree rooted at `p`. -/
def World.removeDirAll (p : FsPath) (w : World) : World :=
  { dirs := w.dirs.filter (fun q => !underDir p q),
    files := w.files.filter (fun f => !underDir p f.1) }

/-- Create or truncate-and-rewrite the regular file at `p`. -/
def World.writeFile (p : FsPath) (content : String) (w : World) : World :=
  { w with files := (p, content) :: w.files.filter (fun f => f.1 != p) }

/-- Look up a regular file's content. -/
def World.readFile (p : FsPath) (w : World) : Option String :=
  (w.files.find? (fun f => f.1 == p)).map (fun f => f.2)

/-- A `Segment` handle as the façade holds it: its id and the directory it
currently lives in (`Segment::id`, `Segment::path`). -/
structure SegmentH where
  id : String
  path : FsPath
deriving Repr, DecidableEq

/-- Modelled from the spec: `Id2NodeDb` (the id↔node store;
`id_node_db.rs` is not among the provided sources), reduced to the rows it
holds plus whether preceding writes were flushed.  `merge` unions the other
map into self (on an overlapping id either version is acceptable; the model
keeps self's row); `flush` makes writes durable. -/
structure Id2NodeDb where
  entries : List (NodeID × Node)
  flushed : Bool
deriving Repr, DecidableEq

/-- Modelled from the spec: `Id2NodeDb::merge` — union, self's row wins on
overlap.  The merged rows are not yet flushed. -/
def Id2NodeDb.mergeDb (a b : Id2NodeDb) : Id2NodeDb :=
  { entries := a.entries ++ b.entries.filter (fun kv => (id2nodeGet a.entries kv.1).isNone),
    flushed := false }

/-- Modelled from the spec: `Id2NodeDb::flush`. -/
def Id2NodeDb.flush (a : Id2NodeDb) : Id2NodeDb :=
  { a with flushed := true }

/-- The `Webgraph` façade state from `mod.rs`: its root directory, the open
segments, the id↔node store and the metadata (the executor is pure
scheduling and is not modelled). -/
structure WebgraphState where
  path : FsPath
  segments : List SegmentH
  id2node : Id2NodeDb
  meta : Meta

/-- `Webgraph::save_metadata`: serialize `meta` and write it to
`<path>/metadata.json`. -/
def WebgraphState.save_metadata (g : WebgraphState) (w : World) : World :=
  w.writeFile (g.path ++ ["metadata.json"]) g.meta.save

/-- The body of the per-segment loop in `Webgraph::merge`: rename the
segment directory into `self.path/segments/`, record its id in `meta`, and
re-open the segment from its new location. -/
def WebgraphState.absorbSegment (gw : WebgraphState × World) (seg : SegmentH) :
    WebgraphState × World :=
  let g := gw.1
  let newPath := g.path ++ ["segments"]
  let w := gw.2.rename seg.path (newPath ++ [seg.id])
  ({ g with
      meta := ⟨g.meta.comitted_segments ++ [seg.id]⟩,
      segments := g.segments ++ [{ id := seg.id, path := newPath ++ [seg.id] }] },
   w)

/-- `Webgraph::merge` from `mod.rs` (the `Ok` path): merge and flush the
id↔node stores, move every segment of `other` into `self.path/segments/`
appending its id to `meta`, remove `other`'s directory, save the
metadata. -/
def WebgraphState.merge (self other : WebgraphState) (w : World) :
    WebgraphState × World :=
  let g0 := { self with id2node := (self.id2node.mergeDb other.id2node).flush }
  let gw := other.segments.foldl WebgraphState.absorbSegment (g0, w)
  let w2 := gw.2.removeDirAll other.path
  let g := gw.1
  (g, g.save_metadata w2)

/-- Modelled from the spec: `Segment::merge` (compaction;
`segment.rs` is not among the provided sources) at the world level —
consume the input segment directories and produce the one compacted segment
directory `<dir>/<id>`. -/
def segmentMergeDirs (olds : List SegmentH) (dir : FsPath) (id : String)
    (w : World) : World :=
  let w := olds.foldl (fun w s => w.removeDirAll s.path) w
  { w with dirs := (dir ++ [id]) :: w.dirs }

/-- `Webgraph::merge_all_segments` from `mod.rs` (the `Ok` path): take the
current segments, compact them via `Segment::merge` into a new segment
under a freshly generated id (`Uuid::new_v4`, modelled as the `newId`
argument), open it as the only segment, set `meta` to just that id and save
the metadata. -/
def WebgraphState.merge_all_segments (g : WebgraphState) (newId : String)
    (w : World) : WebgraphState × World :=
  let path := g.path ++ ["segments"]
  let w := segmentMergeDirs g.segments path newId w
  let g := { g with
      segments := [{ id := newId, path := path ++ [newId] }],
      meta := ⟨[newId]⟩ }
  (g, g.save_metadata w)

/-- The two inputs of the `test_datum_merge` unit test in `merge.rs`:
sort keys 1,4,5 and 2,3,5, with the edge keyed 5 present in both. -/
def edgeMergerTestInput : List (List (StoredEdge Unit)) :=
  [[⟨⟨1, 1⟩, (), 0⟩, ⟨⟨2, 4⟩, (), 0⟩, ⟨⟨3, 5⟩, (), 0⟩],
   [⟨⟨4, 2⟩, (), 0⟩, ⟨⟨5, 3⟩, (), 0⟩, ⟨⟨3, 5⟩, (), 0⟩]]

/-- The two inputs of the `test_merge_nodes` unit test in `merge.rs`: node
ids 1,4,5 and 2,3,5, tagged with their segment ordinals as `MergeIter::new`
does. -/
def mergeIterTestInput : List (List MergeNode) :=
  [[⟨1, ⟨0, 10, 1⟩, 0, 10, 0⟩, ⟨4, ⟨0, 10, 2⟩, 0, 10, 0⟩, ⟨5, ⟨0, 10, 3⟩, 0, 10, 0⟩],
   [⟨2, ⟨0, 10, 4⟩, 0, 10, 1⟩, ⟨3, ⟨0, 10, 5⟩, 0, 10, 1⟩, ⟨5, ⟨0, 10, 3⟩, 0, 10, 1⟩]]

/-- The two single-edge segments of scenario S5: the same source node with
neighbors of distinct sort keys 7 and 4, one per segment. -/
def limitTestSegs : List (List (SegmentEdge String)) :=
  [[⟨⟨100, 0⟩, ⟨2, 7⟩, "b", 0⟩], [⟨⟨100, 0⟩, ⟨3, 4⟩, "c", 0⟩]]

/-! ### Lemmas about the stable sort model -/

theorem insertSorted_perm {α : Type} (le : α → α → Bool) (a : α) (l : List α) :
    (insertSorted le a l).Perm (a :: l) := by
  induction l with
  | nil => simp [insertSorted]
  | cons b t ih =>
    simp only [insertSorted]
    split
    · exact List.Perm.refl _
    · exact (ih.cons b).trans (List.Perm.swap a b t)

theorem isort_perm {α : Type} (le : α → α → Bool) (l : List α) :
    (isort le l).Perm l := by
  induction l with
  | nil => simp [isort]
  | cons a t ih => exact (insertSorted_perm le a (isort le t)).trans (ih.cons a)

theorem mem_isort {α : Type} {le : α → α → Bool} {l : List α} {x : α} :
    x ∈ isort le l ↔ x ∈ l :=
  (isort_perm le l).mem_iff

theorem insertSorted_pairwise {α : Type} (le : α → α → Bool)
    (htot : ∀ a b, le a b = true ∨ le b a = true)
    (htrans : ∀ a b c, le a b = true → le b c = true → le a c = true)
    (a : α) (l : List α) (hl : l.Pairwise (fun x y => le x y = true)) :
    (insertSorted le a l).Pairwise (fun x y => le x y = true) := by
  induction l with
  | nil => simp [insertSorted]
  | cons b t ih =>
    rw [List.pairwise_cons] at hl
    obtain ⟨hb, ht⟩ := hl
    simp only [insertSorted]
    split
    case isTrue hab =>
      rw [List.pairwise_cons]
      refine ⟨?_, by rw [List.pairwise_cons]; exact ⟨hb, ht⟩⟩
      intro x hx
      rcases List.mem_cons.mp hx with rfl | hx
      · exact hab
      · exact htrans a b x hab (hb x hx)
    case isFalse hab =>
      have hba : le b a = true := (htot a b).resolve_left (by simpa using hab)
      rw [List.pairwise_cons]
      refine ⟨?_, ih ht⟩
      intro x hx
      rcases List.mem_cons.mp ((insertSorted_perm le a t).mem_iff.mp hx) with rfl | hx
      · exact hba
      · exact hb x hx

theorem isort_pairwise {α : Type} (le : α → α → Bool)
    (htot : ∀ a b, le a b = true ∨ le b a = true)
    (htrans : ∀ a b c, le a b = true → le b c = true → le a c = true)
    (l : List α) :
    (isort le l).Pairwise (fun x y => le x y = true) := by
  induction l with
  | nil => simp [isort]
  | cons a t ih => exact insertSorted_pairwise le htot htrans a (isort le t) ih

/-! ### Lemmas about the dedup model -/

theorem rdedupAfter_sublist {α : Type} (f : α → Nat) :
    ∀ (l : List α) (a : α), (rdedupAfter f a l).Sublist l := by
  intro l
  induction l with
  | nil => intro a; simp [rdedupAfter]
  | cons b t ih =>
    intro a
    simp only [rdedupAfter]
    split
    · exact (ih a).trans (List.sublist_cons_self b t)
    · exact (ih b).cons₂ b

theorem rdedup_sublist {α : Type} (f : α → Nat) (l : List α) :
    (rdedup f l).Sublist l := by
  cases l with
  | nil => simp [rdedup]
  | cons a t => exact (rdedupAfter_sublist f t a).cons₂ a

theorem rdedupAfter_pairwise {α : Type} (f : α → Nat) :
    ∀ (l : List α) (a : α), l.Pairwise (fun x y => f x ≤ f y) →
      (∀ x ∈ l, f a ≤ f x) →
      (a :: rdedupAfter f a l).Pairwise (fun x y => f x < f y) := by
  intro l
  induction l with
  | nil => intro a _ _; simp [rdedupAfter]
  | cons b t ih =>
    intro a hp ha
    rw [List.pairwise_cons] at hp
    obtain ⟨hb, ht⟩ := hp
    simp only [rdedupAfter]
    split
    case isTrue h =>
      exact ih a ht (fun x hx => le_trans (le_of_eq h) (hb x hx))
    case isFalse h =>
      have hab : f a < f b := lt_of_le_of_ne (ha b (List.mem_cons_self b t)) h
      have hrec := ih b ht hb
      rw [List.pairwise_cons]
      refine ⟨?_, hrec⟩
      intro x hx
      rcases List.mem_cons.mp hx with rfl | hx
      · exact hab
      · have hxt : x ∈ t := (rdedupAfter_sublist f t b).mem hx
        exact lt_of_lt_of_le hab (hb x hxt)

theorem rdedup_pairwise {α : Type} (f : α → Nat) (l : List α)
    (hl : l.Pairwise (fun x y => f x ≤ f y)) :
    (rdedup f l).Pairwise (fun x y => f x < f y) := by
  cases l with
  | nil => simp [rdedup]
  | cons a t =>
    rw [List.pairwise_cons] at hl
    exact rdedupAfter_pairwise f t a hl.2 hl.1

theorem rdedupAfter_coverage {α : Type} (f : α → Nat) :
    ∀ (l : List α) (a : α) (x : α), x ∈ a :: l →
      ∃ y ∈ a :: rdedupAfter f a l, f y = f x := by
  intro l
  induction l with
  | nil =>
    intro a x hx
    rcases List.mem_singleton.mp hx with rfl
    exact ⟨x, List.mem_cons_self _ _, rfl⟩
  | cons b t ih =>
    intro a x hx
    simp only [rdedupAfter]
    split
    case isTrue h =>
      rcases List.mem_cons.mp hx with rfl | hx
      · exact ⟨x, List.mem_cons_self _ _, rfl⟩
      · rcases List.mem_cons.mp hx with rfl | hx
        · exact ⟨a, List.mem_cons_self _ _, h⟩
        · exact ih a x (List.mem_cons_of_mem a hx)
    case isFalse h =>
      rcases List.mem_cons.mp hx with rfl | hx
      · exact ⟨x, List.mem_cons_self _ _, rfl⟩
      · obtain ⟨y, hy, hyx⟩ := ih b x hx
        exact ⟨y, List.mem_cons_of_mem a hy, hyx⟩

theorem rdedup_coverage {α : Type} (f : α → Nat) (l : List α) (x : α)
    (hx : x ∈ l) : ∃ y ∈ rdedup f l, f y = f x := by
  cases l with
  | nil => cases hx
  | cons a t => exact rdedupAfter_coverage f t a x hx

/-! ### Lemmas about the heap-pop primitive -/

theorem totalLen_eq_length_flatten {α : Type} (st : List (List α)) :
    totalLen st = st.flatten.length := by
  simp [totalLen, List.length_flatten]

theorem popMinHead_nil {α : Type} (le : α → α → Bool) :
    popMinHead le ([] : List (List α)) = none := rfl

theorem popMinHead_cons_nil {α : Type} (le : α → α → Bool) (rest : List (List α)) :
    popMinHead le ([] :: rest) = (popMinHead le rest).map (fun p => (p.1, [] :: p.2)) := rfl

theorem popMinHead_cons_cons_none {α : Type} (le : α → α → Bool) (x : α)
    (t : List α) (rest : List (List α)) (h : popMinHead le rest = none) :
    popMinHead le ((x :: t) :: rest) = some (x, t :: rest) := by
  simp only [popMinHead, h]

theorem popMinHead_cons_cons_some {α : Type} (le : α → α → Bool) (x : α)
    (t : List α) (rest : List (List α)) (y : α) (st : List (List α))
    (h : popMinHead le rest = some (y, st)) :
    popMinHead le ((x :: t) :: rest) =
      if le x y then some (x, t :: rest) else some (y, (x :: t) :: st) := by
  simp only [popMinHead, h]

theorem popMinHead_none_iff {α : Type} (le : α → α → Bool) (st : List (List α)) :
    popMinHead le st = none ↔ ∀ s ∈ st, s = [] := by
  induction st with
  | nil => simp [popMinHead]
  | cons s rest ih =>
    cases s with
    | nil =>
      rw [popMinHead_cons_nil le rest]
      cases hr : popMinHead le rest with
      | none =>
        simp only [Option.map_none']
        constructor
        · intro _ s hs
          rcases List.mem_cons.mp hs with rfl | hs
          · rfl
          · exact ih.mp hr s hs
        · intro _; trivial
      | some p =>
        simp only [Option.map_some']
        constructor
        · intro h; cases h
        · intro h
          have hn : popMinHead le rest = none :=
            ih.mpr (fun s hs => h s (List.mem_cons_of_mem _ hs))
          rw [hn] at hr; cases hr
    | cons a t =>
      cases hr : popMinHead le rest with
      | none =>
        rw [popMinHead_cons_cons_none le a t rest hr]
        constructor
        · intro h; cases h
        · intro h
          exact absurd (h (a :: t) (List.mem_cons_self _ _)) (List.cons_ne_nil a t)
      | some p =>
        obtain ⟨y, st₂⟩ := p
        rw [popMinHead_cons_cons_some le a t rest y st₂ hr]
        constructor
        · intro h
          by_cases hle : le a y = true
          · rw [if_pos hle] at h; cases h
          · rw [if_neg hle] at h; cases h
        · intro h
          exact absurd (h (a :: t) (List.mem_cons_self _ _)) (List.cons_ne_nil a t)

theorem popMinHead_perm {α : Type} (le : α → α → Bool) :
    ∀ (st : List (List α)) (x : α) (st' : List (List α)),
      popMinHead le st = some (x, st') → st.flatten.Perm (x :: st'.flatten) := by
  intro st
  induction st with
  | nil => intro x st' h; simp [popMinHead] at h
  | cons s rest ih =>
    intro x st' h
    cases s with
    | nil =>
      rw [popMinHead_cons_nil le rest] at h
      cases hr : popMinHead le rest with
      | none => rw [hr] at h; cases h
      | some p =>
        obtain ⟨y, st₂⟩ := p
        rw [hr] at h
        simp only [Option.map_some', Option.some.injEq, Prod.mk.injEq] at h
        obtain ⟨rfl, rfl⟩ := h
        simpa using ih y st₂ hr
    | cons a t =>
      cases hr : popMinHead le rest with
      | none =>
        rw [popMinHead_cons_cons_none le a t rest hr] at h
        simp only [Option.some.injEq, Prod.mk.injEq] at h
        obtain ⟨rfl, rfl⟩ := h
        simp only [List.flatten_cons, List.cons_append]
        exact List.Perm.refl _
      | some p =>
        obtain ⟨y, st₂⟩ := p
        rw [popMinHead_cons_cons_some le a t rest y st₂ hr] at h
        by_cases hle : le a y = true
        · rw [if_pos hle] at h
          simp only [Option.some.injEq, Prod.mk.injEq] at h
          obtain ⟨rfl, rfl⟩ := h
          simp only [List.flatten_cons, List.cons_append]
          exact List.Perm.refl _
        · rw [if_neg hle] at h
          simp only [Option.some.injEq, Prod.mk.injEq] at h
          obtain ⟨rfl, rfl⟩ := h
          have hperm := ih y st₂ hr
          simp only [List.flatten_cons]
          exact (List.Perm.append_left (a :: t) hperm).trans List.perm_middle

theorem popMinHead_min {α : Type} (le : α → α → Bool)
    (htot : ∀ a b, le a b = true ∨ le b a = true)
    (htrans : ∀ a b c, le a b = true → le b c = true → le a c = true) :
    ∀ (st : List (List α)), (∀ s ∈ st, s.Pairwise (fun u v => le u v = true)) →
      ∀ (x : α) (st' : List (List α)), popMinHead le st = some (x, st') →
      ∀ z ∈ st.flatten, le x z = true := by
  intro st
  induction st with
  | nil => intro _ x st' h; simp [popMinHead] at h
  | cons s rest ih =>
    intro hsort x st' h
    have hsrest : ∀ s ∈ rest, s.Pairwise (fun u v => le u v = true) :=
      fun s hs => hsort s (List.mem_cons_of_mem _ hs)
    cases s with
    | nil =>
      rw [popMinHead_cons_nil le rest] at h
      cases hr : popMinHead le rest with
      | none => rw [hr] at h; cases h
      | some p =>
        obtain ⟨y, st₂⟩ := p
        rw [hr] at h
        simp only [Option.map_some', Option.some.injEq, Prod.mk.injEq] at h
        obtain ⟨rfl, rfl⟩ := h
        intro z hz
        simp only [List.flatten_cons, List.nil_append] at hz
        exact ih hsrest y st₂ hr z hz
    | cons a t =>
      have hle_refl : ∀ u : α, le u u = true := fun u => (htot u u).elim id id
      have hhead : ∀ z ∈ a :: t, le a z = true := by
        intro z hz
        rcases List.mem_cons.mp hz with rfl | hz
        · exact hle_refl z
        · have hp := hsort (a :: t) (List.mem_cons_self _ _)
          rw [List.pairwise_cons] at hp
          exact hp.1 z hz
      cases hr : popMinHead le rest with
      | none =>
        rw [popMinHead_cons_cons_none le a t rest hr] at h
        simp only [Option.some.injEq, Prod.mk.injEq] at h
        obtain ⟨rfl, rfl⟩ := h
        intro z hz
        simp only [List.flatten_cons] at hz
        rcases List.mem_append.mp hz with hz | hz
        · exact hhead z hz
        · obtain ⟨sz, hsz, hzsz⟩ := List.mem_flatten.mp hz
          rw [(popMinHead_none_iff le rest).mp hr sz hsz] at hzsz
          cases hzsz
      | some p =>
        obtain ⟨y, st₂⟩ := p
        rw [popMinHead_cons_cons_some le a t rest y st₂ hr] at h
        have hymin := ih hsrest y st₂ hr
        by_cases hle : le a y = true
        · rw [if_pos hle] at h
          simp only [Option.some.injEq, Prod.mk.injEq] at h
          obtain ⟨rfl, rfl⟩ := h
          intro z hz
          simp only [List.flatten_cons] at hz
          rcases List.mem_append.mp hz with hz | hz
          · exact hhead z hz
          · exact htrans a y z hle (hymin z hz)
        · rw [if_neg hle] at h
          simp only [Option.some.injEq, Prod.mk.injEq] at h
          obtain ⟨rfl, rfl⟩ := h
          have hya : le y a = true := (htot a y).resolve_left hle
          intro z hz
          simp only [List.flatten_cons] at hz
          rcases List.mem_append.mp hz with hz | hz
          · exact htrans y a z hya (hhead z hz)
          · exact hymin z hz

theorem popMinHead_tails {α : Type} (le : α → α → Bool) :
    ∀ (st : List (List α)) (x : α) (st' : List (List α)),
      popMinHead le st = some (x, st') →
      ∀ s' ∈ st', ∃ s ∈ st, s'.Sublist s := by
  intro st
  induction st with
  | nil => intro x st' h; simp [popMinHead] at h
  | cons s rest ih =>
    intro x st' h
    cases s with
    | nil =>
      rw [popMinHead_cons_nil le rest] at h
      cases hr : popMinHead le rest with
      | none => rw [hr] at h; cases h
      | some p =>
        obtain ⟨y, st₂⟩ := p
        rw [hr] at h
        simp only [Option.map_some', Option.some.injEq, Prod.mk.injEq] at h
        obtain ⟨rfl, rfl⟩ := h
        intro s' hs'
        rcases List.mem_cons.mp hs' with rfl | hs'
        · exact ⟨[], List.mem_cons_self _ _, List.Sublist.refl _⟩
        · obtain ⟨s, hs, hsub⟩ := ih y st₂ hr s' hs'
          exact ⟨s, List.mem_cons_of_mem _ hs, hsub⟩
    | cons a t =>
      cases hr : popMinHead le rest with
      | none =>
        rw [popMinHead_cons_cons_none le a t rest hr] at h
        simp only [Option.some.injEq, Prod.mk.injEq] at h
        obtain ⟨rfl, rfl⟩ := h
        intro s' hs'
        rcases List.mem_cons.mp hs' with heq | hs'
        · exact ⟨a :: t, List.mem_cons_self _ _, by rw [heq]; exact List.sublist_cons_self a t⟩
        · exact ⟨s', List.mem_cons_of_mem _ hs', List.Sublist.refl _⟩
      | some p =>
        obtain ⟨y, st₂⟩ := p
        rw [popMinHead_cons_cons_some le a t rest y st₂ hr] at h
        by_cases hle : le a y = true
        · rw [if_pos hle] at h
          simp only [Option.some.injEq, Prod.mk.injEq] at h
          obtain ⟨rfl, rfl⟩ := h
          intro s' hs'
          rcases List.mem_cons.mp hs' with heq | hs'
          · exact ⟨a :: t, List.mem_cons_self _ _, by rw [heq]; exact List.sublist_cons_self a t⟩
          · exact ⟨s', List.mem_cons_of_mem _ hs', List.Sublist.refl _⟩
        · rw [if_neg hle] at h
          simp only [Option.some.injEq, Prod.mk.injEq] at h
          obtain ⟨rfl, rfl⟩ := h
          intro s' hs'
          rcases List.mem_cons.mp hs' with heq | hs'
          · exact ⟨a :: t, List.mem_cons_self _ _, by rw [heq]⟩
          · obtain ⟨s, hs, hsub⟩ := ih y st₂ hr s' hs'
            exact ⟨s, List.mem_cons_of_mem _ hs, hsub⟩

theorem popMinHead_dropWhile {α : Type} (le : α → α → Bool) (P : α → Bool) :
    ∀ (st : List (List α)) (x : α) (st' : List (List α)),
      popMinHead le st = some (x, st') → P x = true →
      st.map (List.dropWhile P) = st'.map (List.dropWhile P) := by
  intro st
  induction st with
  | nil => intro x st' h _; simp [popMinHead] at h
  | cons s rest ih =>
    intro x st' h hx
    cases s with
    | nil =>
      rw [popMinHead_cons_nil le rest] at h
      cases hr : popMinHead le rest with
      | none => rw [hr] at h; cases h
      | some p =>
        obtain ⟨y, st₂⟩ := p
        rw [hr] at h
        simp only [Option.map_some', Option.some.injEq, Prod.mk.injEq] at h
        obtain ⟨rfl, rfl⟩ := h
        simp only [List.map_cons]
        rw [ih y st₂ hr hx]
    | cons a t =>
      cases hr : popMinHead le rest with
      | none =>
        rw [popMinHead_cons_cons_none le a t rest hr] at h
        simp only [Option.some.injEq, Prod.mk.injEq] at h
        obtain ⟨rfl, rfl⟩ := h
        simp only [List.map_cons, List.dropWhile_cons, hx]
        simp
      | some p =>
        obtain ⟨y, st₂⟩ := p
        rw [popMinHead_cons_cons_some le a t rest y st₂ hr] at h
        by_cases hle : le a y = true
        · rw [if_pos hle] at h
          simp only [Option.some.injEq, Prod.mk.injEq] at h
          obtain ⟨rfl, rfl⟩ := h
          simp only [List.map_cons, List.dropWhile_cons, hx]
          simp
        · rw [if_neg hle] at h
          simp only [Option.some.injEq, Prod.mk.injEq] at h
          obtain ⟨rfl, rfl⟩ := h
          simp only [List.map_cons]
          rw [ih y st₂ hr hx]

theorem mergeNodeLe_iff (a b : MergeNode) :
    MergeNode.le a b = true ↔ a.node ≤ b.node := by
  simp [MergeNode.le]

theorem mergeNodeLe_total (a b : MergeNode) :
    MergeNode.le a b = true ∨ MergeNode.le b a = true := by
  rw [mergeNodeLe_iff, mergeNodeLe_iff]
  exact Nat.le_total _ _

theorem mergeNodeLe_trans (a b c : MergeNode) :
    MergeNode.le a b = true → MergeNode.le b c = true → MergeNode.le a c = true := by
  rw [mergeNodeLe_iff, mergeNodeLe_iff, mergeNodeLe_iff]
  exact Nat.le_trans

theorem nodeDatumLe_iff (a b : NodeDatum) :
    NodeDatum.le a b = true ↔
      (a.sort_key < b.sort_key ∨ (a.sort_key = b.sort_key ∧ a.id ≤ b.id)) := by
  simp [NodeDatum.le, Nat.blt_eq]

theorem storedEdgeLe_iff {L : Type} (a b : StoredEdge L) :
    StoredEdge.le a b = true ↔
      (a.other.sort_key < b.other.sort_key ∨
        (a.other.sort_key = b.other.sort_key ∧ a.other.id ≤ b.other.id)) := by
  simp [StoredEdge.le, nodeDatumLe_iff]

theorem storedEdgeLe_total {L : Type} (a b : StoredEdge L) :
    StoredEdge.le a b = true ∨ StoredEdge.le b a = true := by
  rw [storedEdgeLe_iff, storedEdgeLe_iff]
  rcases Nat.lt_trichotomy a.other.sort_key b.other.sort_key with h | h | h
  · exact Or.inl (Or.inl h)
  · rcases Nat.le_total a.other.id b.other.id with h2 | h2
    · exact Or.inl (Or.inr ⟨h, h2⟩)
    · exact Or.inr (Or.inr ⟨h.symm, h2⟩)
  · exact Or.inr (Or.inl h)

theorem storedEdgeLe_trans {L : Type} (a b c : StoredEdge L) :
    StoredEdge.le a b = true → StoredEdge.le b c = true →
    StoredEdge.le a c = true := by
  rw [storedEdgeLe_iff, storedEdgeLe_iff, storedEdgeLe_iff]
  rintro (h1 | ⟨h1, h1'⟩) (h2 | ⟨h2, h2'⟩)
  · exact Or.inl (h1.trans h2)
  · exact Or.inl (h2 ▸ h1)
  · exact Or.inl (h1 ▸ h2)
  · exact Or.inr ⟨h1.trans h2, h1'.trans h2'⟩

theorem flatten_eq_nil_of_all_nil {α : Type} {st : List (List α)}
    (h : ∀ s ∈ st, s = []) : st.flatten = [] := by
  rw [List.eq_nil_iff_forall_not_mem]
  intro z hz
  obtain ⟨s, hs, hzs⟩ := List.mem_flatten.mp hz
  rw [h s hs] at hzs
  cases hzs

theorem map_dropWhile_self {α : Type} (P : α → Bool) (st : List (List α))
    (h : ∀ s ∈ st, ∀ z ∈ s, ∀ hd : List α, s = z :: hd → P z = false) :
    st.map (List.dropWhile P) = st := by
  have : ∀ s ∈ st, List.dropWhile P s = s := by
    intro s hs
    cases hcs : s with
    | nil => rfl
    | cons z hd =>
      rw [List.dropWhile_cons_of_neg]
      rw [h s hs z (by rw [hcs]; exact List.mem_cons_self _ _) hd hcs]
      simp
  calc st.map (List.dropWhile P) = st.map id := List.map_congr_left this
    _ = st := List.map_id st

theorem mergeDrain_spec :
    ∀ (fuel : Nat) (st : List (List MergeNode)) (m : NodeID),
      totalLen st ≤ fuel →
      (∀ s ∈ st, s.Pairwise (fun u v => MergeNode.le u v = true)) →
      (∀ z ∈ st.flatten, m ≤ z.node) →
      (mergeDrain fuel m st).1.Perm (st.flatten.filter (fun z => z.node == m)) ∧
      (mergeDrain fuel m st).2 = st.map (List.dropWhile (fun z => z.node == m)) := by
  intro fuel
  induction fuel with
  | zero =>
    intro st m hfuel hsort hge
    have hlen : st.flatten.length = 0 := by
      have := totalLen_eq_length_flatten st
      omega
    have hflat : st.flatten = [] := List.length_eq_zero.mp hlen
    have hall : ∀ s ∈ st, s = [] := by
      intro s hs
      rw [List.eq_nil_iff_forall_not_mem]
      intro z hz
      have : z ∈ st.flatten := List.mem_flatten.mpr ⟨s, hs, hz⟩
      rw [hflat] at this
      cases this
    constructor
    · simp [mergeDrain, hflat]
    · simp only [mergeDrain]
      symm
      apply map_dropWhile_self
      intro s hs z hz hd hcs
      rw [hall s hs] at hcs
      cases hcs
  | succ fuel ih =>
    intro st m hfuel hsort hge
    cases hpop : popMinHead MergeNode.le st with
    | none =>
      have hall := (popMinHead_none_iff _ st).mp hpop
      have hflat := flatten_eq_nil_of_all_nil hall
      simp only [mergeDrain, hpop]
      constructor
      · simp [hflat]
      · symm
        apply map_dropWhile_self
        intro s hs z hz hd hcs
        rw [hall s hs] at hcs
        cases hcs
    | some p =>
      obtain ⟨x, st'⟩ := p
      have hperm := popMinHead_perm MergeNode.le st x st' hpop
      simp only [mergeDrain, hpop]
      by_cases hx : x.node = m
      · rw [if_pos hx]
        have hsort' : ∀ s ∈ st', s.Pairwise (fun u v => MergeNode.le u v = true) := by
          intro s' hs'
          obtain ⟨s, hs, hsub⟩ := popMinHead_tails _ st x st' hpop s' hs'
          exact (hsort s hs).sublist hsub
        have hge' : ∀ z ∈ st'.flatten, m ≤ z.node := fun z hz =>
          hge z (hperm.mem_iff.mpr (List.mem_cons_of_mem x hz))
        have hf' : totalLen st' ≤ fuel := by
          have h1 := totalLen_eq_length_flatten st
          have h2 := totalLen_eq_length_flatten st'
          have h3 := hperm.length_eq
          simp only [List.length_cons] at h3
          omega
        obtain ⟨ihp, ihs⟩ := ih st' m hf' hsort' hge'
        constructor
        · have hfp : (st.flatten.filter (fun z => z.node == m)).Perm
              (x :: st'.flatten.filter (fun z => z.node == m)) := by
            have h1 := hperm.filter (fun z => z.node == m)
            simpa [List.filter_cons, hx] using h1
          exact (ihp.cons x).trans hfp.symm
        · show (mergeDrain fuel m st').2 = _
          rw [ihs]
          exact (popMinHead_dropWhile _ _ st x st' hpop (by simp [hx])).symm
      · rw [if_neg hx]
        have hmin := popMinHead_min MergeNode.le
          (fun a b => mergeNodeLe_total a b)
          (fun a b c => mergeNodeLe_trans a b c) st hsort x st' hpop
        have hxm : m < x.node :=
          lt_of_le_of_ne (hge x (hperm.mem_iff.mpr (List.mem_cons_self _ _))) (Ne.symm hx)
        have hgt : ∀ z ∈ st.flatten, m < z.node := by
          intro z hz
          exact Nat.lt_of_lt_of_le hxm ((mergeNodeLe_iff x z).mp (hmin z hz))
        constructor
        · have : st.flatten.filter (fun z => z.node == m) = [] := by
            rw [List.filter_eq_nil_iff]
            intro z hz
            have hlt := hgt z hz
            simp only [beq_iff_eq]
            exact fun heq => Nat.lt_irrefl m (heq ▸ hlt)
          simp [this]
        · symm
          apply map_dropWhile_self
          intro s hs z hz hd hcs
          have hzf : z ∈ st.flatten := List.mem_flatten.mpr ⟨s, hs, hz⟩
          have hlt := hgt z hzf
          simp only [beq_eq_false_iff_ne, ne_eq]
          exact fun heq => Nat.lt_irrefl m (heq ▸ hlt)

theorem storedEdgeLe_key {L : Type} {a b : StoredEdge L}
    (h : StoredEdge.le a b = true) : a.other.sort_key ≤ b.other.sort_key := by
  rcases (storedEdgeLe_iff a b).mp h with h | ⟨h, _⟩
  · exact Nat.le_of_lt h
  · exact Nat.le_of_eq h

theorem edgeDrop_spec {L : Type} :
    ∀ (fuel : Nat) (st : List (List (StoredEdge L))) (k : Nat),
      totalLen st ≤ fuel →
      (∀ s ∈ st, s.Pairwise (fun u v => StoredEdge.le u v = true)) →
      (∀ z ∈ st.flatten, k ≤ z.other.sort_key) →
      (∃ dropped, st.flatten.Perm (dropped ++ (edgeDrop fuel k st).flatten) ∧
        ∀ d ∈ dropped, d.other.sort_key = k) ∧
      (∀ z ∈ (edgeDrop fuel k st).flatten, k < z.other.sort_key) ∧
      (∀ s ∈ edgeDrop fuel k st, s.Pairwise (fun u v => StoredEdge.le u v = true)) := by
  intro fuel
  induction fuel with
  | zero =>
    intro st k hfuel hsort hge
    have hlen : st.flatten.length = 0 := by
      have := totalLen_eq_length_flatten st
      omega
    have hflat : st.flatten = [] := List.length_eq_zero.mp hlen
    refine ⟨⟨[], ?_, by intro d hd; cases hd⟩, ?_, ?_⟩
    · simp [edgeDrop, hflat]
    · intro z hz
      simp only [edgeDrop] at hz
      rw [hflat] at hz
      cases hz
    · intro s hs
      simp only [edgeDrop] at hs
      exact hsort s hs
  | succ fuel ih =>
    intro st k hfuel hsort hge
    cases hpop : popMinHead StoredEdge.le st with
    | none =>
      have hall := (popMinHead_none_iff _ st).mp hpop
      have hflat := flatten_eq_nil_of_all_nil hall
      simp only [edgeDrop, hpop]
      refine ⟨⟨[], by simp [hflat], by intro d hd; cases hd⟩, ?_, hsort⟩
      intro z hz
      rw [hflat] at hz
      cases hz
    | some p =>
      obtain ⟨x, st'⟩ := p
      have hperm := popMinHead_perm StoredEdge.le st x st' hpop
      simp only [edgeDrop, hpop]
      by_cases hx : x.other.sort_key = k
      · rw [if_pos hx]
        have hsort' : ∀ s ∈ st', s.Pairwise (fun u v => StoredEdge.le u v = true) := by
          intro s' hs'
          obtain ⟨s, hs, hsub⟩ := popMinHead_tails _ st x st' hpop s' hs'
          exact (hsort s hs).sublist hsub
        have hge' : ∀ z ∈ st'.flatten, k ≤ z.other.sort_key := fun z hz =>
          hge z (hperm.mem_iff.mpr (List.mem_cons_of_mem x hz))
        have hf' : totalLen st' ≤ fuel := by
          have h1 := totalLen_eq_length_flatten st
          have h2 := totalLen_eq_length_flatten st'
          have h3 := hperm.length_eq
          simp only [List.length_cons] at h3
          omega
        obtain ⟨⟨dropped, hdp, hdk⟩, hgt, hsort₂⟩ := ih st' k hf' hsort' hge'
        refine ⟨⟨x :: dropped, ?_, ?_⟩, hgt, hsort₂⟩
        · exact hperm.trans (hdp.cons x)
        · intro d hd
          rcases List.mem_cons.mp hd with rfl | hd
          · exact hx
          · exact hdk d hd
      · rw [if_neg hx]
        have hmin := popMinHead_min StoredEdge.le
          (fun a b => storedEdgeLe_total a b)
          (fun a b c => storedEdgeLe_trans a b c) st hsort x st' hpop
        have hxk : k < x.other.sort_key :=
          Nat.lt_of_le_of_ne (hge x (hperm.mem_iff.mpr (List.mem_cons_self _ _)))
            (fun heq => hx heq.symm)
        refine ⟨⟨[], by simp, by intro d hd; cases hd⟩, ?_, hsort⟩
        intro z hz
        exact Nat.lt_of_lt_of_le hxk (storedEdgeLe_key (hmin z hz))

theorem EdgeMerger.next_spec {L : Type} (st : List (List (StoredEdge L)))
    (hsort : ∀ s ∈ st, s.Pairwise (fun u v => StoredEdge.le u v = true)) :
    (EdgeMerger.next st = none ↔ ∀ s ∈ st, s = []) ∧
    (∀ e st₂, EdgeMerger.next st = some (e, st₂) →
      (∀ z ∈ st.flatten, StoredEdge.le e z = true) ∧
      (∃ dropped, st.flatten.Perm (e :: (dropped ++ st₂.flatten)) ∧
        ∀ d ∈ dropped, d.other.sort_key = e.other.sort_key) ∧
      (∀ z ∈ st₂.flatten, e.other.sort_key < z.other.sort_key) ∧
      (∀ s ∈ st₂, s.Pairwise (fun u v => StoredEdge.le u v = true))) := by
  constructor
  · rw [show EdgeMerger.next st = none ↔ popMinHead StoredEdge.le st = none from ?_]
    · exact popMinHead_none_iff _ st
    · cases hpop : popMinHead StoredEdge.le st with
      | none => simp [EdgeMerger.next, hpop]
      | some p => simp [EdgeMerger.next, hpop]
  · intro e st₂ h
    cases hpop : popMinHead StoredEdge.le st with
    | none => rw [EdgeMerger.next, hpop] at h; cases h
    | some p =>
      obtain ⟨x, st'⟩ := p
      rw [EdgeMerger.next, hpop] at h
      simp only [Option.some.injEq, Prod.mk.injEq] at h
      obtain ⟨rfl, rfl⟩ := h
      have hperm := popMinHead_perm StoredEdge.le st x st' hpop
      have hmin := popMinHead_min StoredEdge.le
        (fun a b => storedEdgeLe_total a b)
        (fun a b c => storedEdgeLe_trans a b c) st hsort x st' hpop
      have hsort' : ∀ s ∈ st', s.Pairwise (fun u v => StoredEdge.le u v = true) := by
        intro s' hs'
        obtain ⟨s, hs, hsub⟩ := popMinHead_tails _ st x st' hpop s' hs'
        exact (hsort s hs).sublist hsub
      have hge' : ∀ z ∈ st'.flatten, x.other.sort_key ≤ z.other.sort_key :=
        fun z hz =>
          storedEdgeLe_key (hmin z (hperm.mem_iff.mpr (List.mem_cons_of_mem x hz)))
      obtain ⟨⟨dropped, hdp, hdk⟩, hgt, hsort₂⟩ :=
        edgeDrop_spec (totalLen st') st' x.other.sort_key (Nat.le_refl _) hsort' hge'
      exact ⟨hmin, ⟨dropped, hperm.trans (hdp.cons x), hdk⟩, hgt, hsort₂⟩

theorem EdgeMerger.run_spec {L : Type} :
    ∀ (fuel : Nat) (st : List (List (StoredEdge L))),
      (∀ s ∈ st, s.Pairwise (fun u v => StoredEdge.le u v = true)) →
      (∀ z ∈ EdgeMerger.run fuel st, z ∈ st.flatten) ∧
      ((EdgeMerger.run fuel st).map (fun e => e.other.sort_key)).Nodup := by
  intro fuel
  induction fuel with
  | zero =>
    intro st _
    constructor
    · intro z hz
      simp [EdgeMerger.run] at hz
    · simp [EdgeMerger.run]
  | succ fuel ih =>
    intro st hsort
    cases hnext : EdgeMerger.next st with
    | none =>
      constructor
      · intro z hz
        simp only [EdgeMerger.run, hnext] at hz
        cases hz
      · simp [EdgeMerger.run, hnext]
    | some p =>
      obtain ⟨e, st₂⟩ := p
      obtain ⟨_, ⟨dropped, hdp, hdk⟩, hgt, hsort₂⟩ :=
        (EdgeMerger.next_spec st hsort).2 e st₂ hnext
      obtain ⟨ihsub, ihnd⟩ := ih st₂ hsort₂
      constructor
      · intro z hz
        simp only [EdgeMerger.run, hnext] at hz
        rcases List.mem_cons.mp hz with rfl | hz
        · exact hdp.mem_iff.mpr (List.mem_cons_self _ _)
        · exact hdp.mem_iff.mpr
            (List.mem_cons_of_mem e (List.mem_append_right dropped (ihsub z hz)))
      · simp only [EdgeMerger.run, hnext, List.map_cons]
        rw [List.nodup_cons]
        refine ⟨?_, ihnd⟩
        intro hmem
        obtain ⟨z, hz, hzk⟩ := List.mem_map.mp hmem
        have hlt := hgt z (ihsub z hz)
        rw [hzk] at hlt
        exact Nat.lt_irrefl _ hlt

/-- C2: over input iterators each yielding records sorted ascending by
NodeID, `MergeIter::advance` fills the (cleared) buffer with exactly the
group of records sharing the minimal remaining NodeID, advances every input
past that group, returns true in that case, and returns false exactly when
all inputs are exhausted. -/
theorem MergeIter.advance_groups (st : List (List MergeNode))
    (hsort : ∀ s ∈ st, s.Pairwise (fun u v => u.node ≤ v.node)) :
    ((MergeIter.advance st).1 = false ↔ ∀ s ∈ st, s = []) ∧
    ((MergeIter.advance st).1 = true →
      ∃ m, (∀ z ∈ st.flatten, m ≤ z.node) ∧ (∃ z ∈ st.flatten, z.node = m) ∧
        (MergeIter.advance st).2.1.Perm
          (st.flatten.filter (fun z => z.node == m)) ∧
        (MergeIter.advance st).2.2 = st.map (List.dropWhile (fun z => z.node == m))) := by
  have hsortB : ∀ s ∈ st, s.Pairwise (fun u v => MergeNode.le u v = true) :=
    fun s hs => (hsort s hs).imp (fun h => (mergeNodeLe_iff _ _).mpr h)
  cases hpop : popMinHead MergeNode.le st with
  | none =>
    simp only [MergeIter.advance, hpop]
    constructor
    · exact ⟨fun _ => (popMinHead_none_iff _ st).mp hpop, fun _ => by trivial⟩
    · intro h; cases h
  | some p =>
    obtain ⟨x, st'⟩ := p
    have hperm := popMinHead_perm MergeNode.le st x st' hpop
    have hmin := popMinHead_min MergeNode.le (fun a b => mergeNodeLe_total a b)
      (fun a b c => mergeNodeLe_trans a b c) st hsortB x st' hpop
    have hsort' : ∀ s ∈ st', s.Pairwise (fun u v => MergeNode.le u v = true) := by
      intro s' hs'
      obtain ⟨s, hs, hsub⟩ := popMinHead_tails _ st x st' hpop s' hs'
      exact (hsortB s hs).sublist hsub
    have hge' : ∀ z ∈ st'.flatten, x.node ≤ z.node := fun z hz =>
      (mergeNodeLe_iff _ _).mp
        (hmin z (hperm.mem_iff.mpr (List.mem_cons_of_mem x hz)))
    obtain ⟨hbuf, hst⟩ :=
      mergeDrain_spec (totalLen st') st' x.node (Nat.le_refl _) hsort' hge'
    simp only [MergeIter.advance, hpop]
    constructor
    · constructor
      · intro h; cases h
      · intro h
        rw [(popMinHead_none_iff _ st).mpr h] at hpop
        cases hpop
    · intro _
      refine ⟨x.node, ?_, ⟨x, hperm.mem_iff.mpr (List.mem_cons_self _ _), rfl⟩, ?_, ?_⟩
      · intro z hz
        exact (mergeNodeLe_iff _ _).mp (hmin z hz)
      · have hfp : (st.flatten.filter (fun z => z.node == x.node)).Perm
            (x :: st'.flatten.filter (fun z => z.node == x.node)) := by
          have h1 := hperm.filter (fun z => z.node == x.node)
          simpa [List.filter_cons] using h1
        exact (hbuf.cons x).trans hfp.symm
      · rw [hst]
        exact (popMinHead_dropWhile _ _ st x st' hpop (by simp)).symm

/-- Witness for C2 at the `test_merge_nodes` inputs `[1,4,5]` and
`[2,3,5]`: the hypotheses hold, the theorem applies, and the five
successive `advance` calls produce groups of sizes 1,1,1,1,2 followed by a
false return. -/
theorem MergeIter.advance_groups_witness :
    (∀ s ∈ mergeIterTestInput, s.Pairwise (fun u v => u.node ≤ v.node)) ∧
    (∃ m, (∀ z ∈ mergeIterTestInput.flatten, m ≤ z.node) ∧
      (∃ z ∈ mergeIterTestInput.flatten, z.node = m) ∧
      (MergeIter.advance mergeIterTestInput).2.1.Perm
        (mergeIterTestInput.flatten.filter (fun z => z.node == m)) ∧
      (MergeIter.advance mergeIterTestInput).2.2 =
        mergeIterTestInput.map (List.dropWhile (fun z => z.node == m))) ∧
    ((MergeIter.advance mergeIterTestInput).1 = true ∧
      (MergeIter.advance mergeIterTestInput).2.1.length = 1 ∧
      ((mergeIterTestInput
          |> (fun st => (MergeIter.advance st).2.2)
          |> (fun st => ((MergeIter.advance st).1, (MergeIter.advance st).2.1.length))) =
        (true, 1)) ∧
      ((mergeIterTestInput
          |> (fun st => (MergeIter.advance st).2.2)
          |> (fun st => (MergeIter.advance st).2.2)
          |> (fun st => ((MergeIter.advance st).1, (MergeIter.advance st).2.1.length))) =
        (true, 1)) ∧
      ((mergeIterTestInput
          |> (fun st => (MergeIter.advance st).2.2)
          |> (fun st => (MergeIter.advance st).2.2)
          |> (fun st => (MergeIter.advance st).2.2)
          |> (fun st => ((MergeIter.advance st).1, (MergeIter.advance st).2.1.length))) =
        (true, 1)) ∧
      ((mergeIterTestInput
          |> (fun st => (MergeIter.advance st).2.2)
          |> (fun st => (MergeIter.advance st).2.2)
          |> (fun st => (MergeIter.advance st).2.2)
          |> (fun st => (MergeIter.advance st).2.2)
          |> (fun st => ((MergeIter.advance st).1, (MergeIter.advance st).2.1.length))) =
        (true, 2)) ∧
      ((mergeIterTestInput
          |> (fun st => (MergeIter.advance st).2.2)
          |> (fun st => (MergeIter.advance st).2.2)
          |> (fun st => (MergeIter.advance st).2.2)
          |> (fun st => (MergeIter.advance st).2.2)
          |> (fun st => (MergeIter.advance st).2.2)
          |> (fun st => (MergeIter.advance st).1)) = false)) :=
  ⟨by decide,
   (MergeIter.advance_groups mergeIterTestInput (by decide)).2 (by decide),
   by decide⟩

/-- C1: over input iterators each sorted ascending by the neighbor
`NodeDatum`, `EdgeMerger::next` returns the minimum remaining edge and then
consumes every remaining record whose `other.sort_key` equals the returned
edge's (afterwards every remaining record has a strictly larger sort key);
consequently, across the whole merged sequence at most one edge is emitted
for any given sort key. -/
theorem EdgeMerger.next_min_dedup {L : Type} (st : List (List (StoredEdge L)))
    (hsort : ∀ s ∈ st, s.Pairwise (fun u v => StoredEdge.le u v = true)) :
    (EdgeMerger.next st = none ↔ ∀ s ∈ st, s = []) ∧
    (∀ e st₂, EdgeMerger.next st = some (e, st₂) →
      (∀ z ∈ st.flatten, StoredEdge.le e z = true) ∧
      (∃ dropped, st.flatten.Perm (e :: (dropped ++ st₂.flatten)) ∧
        ∀ d ∈ dropped, d.other.sort_key = e.other.sort_key) ∧
      (∀ z ∈ st₂.flatten, e.other.sort_key < z.other.sort_key)) ∧
    ((EdgeMerger.run (totalLen st) st).map (fun e => e.other.sort_key)).Nodup := by
  obtain ⟨h1, h2⟩ := EdgeMerger.next_spec st hsort
  refine ⟨h1, ?_, (EdgeMerger.run_spec (totalLen st) st hsort).2⟩
  intro e st₂ h
  obtain ⟨a, b, c, _⟩ := h2 e st₂ h
  exact ⟨a, b, c⟩

/-- Witness for C1 at the `test_datum_merge` inputs (sort keys 1,4,5 and
2,3,5, the key-5 edge in both): the hypotheses hold, the theorem applies,
and the merged sequence is exactly one edge per sort key — the duplicated
key 5 is emitted once. -/
theorem EdgeMerger.next_min_dedup_witness :
    (∀ s ∈ edgeMergerTestInput, s.Pairwise (fun u v => StoredEdge.le u v = true)) ∧
    ((EdgeMerger.run (totalLen edgeMergerTestInput) edgeMergerTestInput).map
        (fun e => e.other.sort_key)).Nodup ∧
    (EdgeMerger.run (totalLen edgeMergerTestInput) edgeMergerTestInput).map
        (fun e => e.other.sort_key) = [1, 2, 3, 4, 5] ∧
    ((edgeMergerTestInput.flatten.filter
        (fun e => e.other.sort_key == 5)).length = 2) :=
  ⟨by decide,
   (EdgeMerger.next_min_dedup edgeMergerTestInput (by decide)).2.2,
   by decide, by decide⟩

/-! ### Lemmas about the query pipeline -/

theorem ble_proj_total {α : Type} (f : α → Nat) (a b : α) :
    Nat.ble (f a) (f b) = true ∨ Nat.ble (f b) (f a) = true := by
  rcases Nat.le_total (f a) (f b) with h | h
  · exact Or.inl (by simpa [Nat.ble_eq] using h)
  · exact Or.inr (by simpa [Nat.ble_eq] using h)

theorem ble_proj_trans {α : Type} (f : α → Nat) (a b c : α)
    (h1 : Nat.ble (f a) (f b) = true) (h2 : Nat.ble (f b) (f c) = true) :
    Nat.ble (f a) (f c) = true := by
  simp only [Nat.ble_eq] at h1 h2 ⊢
  exact Nat.le_trans h1 h2

theorem dedupOutgoing_pairwise {L : Type} (l : List (SegmentEdge L)) :
    (Webgraph.dedupOutgoing l).Pairwise (fun a b => a.to_.id < b.to_.id) := by
  apply rdedup_pairwise
  have := isort_pairwise (fun a b : SegmentEdge L => Nat.ble a.to_.id b.to_.id)
    (fun a b => ble_proj_total (fun e => e.to_.id) a b)
    (fun a b c => ble_proj_trans (fun e => e.to_.id) a b c) l
  exact this.imp (fun h => by simpa [Nat.ble_eq] using h)

theorem dedupOutgoing_subset {L : Type} (l : List (SegmentEdge L)) (x : SegmentEdge L)
    (hx : x ∈ Webgraph.dedupOutgoing l) : x ∈ l :=
  mem_isort.mp ((rdedup_sublist _ _).mem hx)

theorem dedupOutgoing_coverage {L : Type} (l : List (SegmentEdge L)) (x : SegmentEdge L)
    (hx : x ∈ l) : ∃ y ∈ Webgraph.dedupOutgoing l, y.to_.id = x.to_.id := by
  have h := rdedup_coverage (fun e : SegmentEdge L => e.to_.id)
    (isort (fun a b => Nat.ble a.to_.id b.to_.id) l) x (mem_isort.mpr hx)
  exact h

theorem preJoin_subset {L : Type} (segs : List (List (SegmentEdge L)))
    (lim : EdgeLimit) (z : SegmentEdge L)
    (hz : z ∈ (segs.map (fun s => Segment.outgoing_edges_with_label s lim)).flatten) :
    z ∈ segs.flatten := by
  obtain ⟨s', hs', hzs'⟩ := List.mem_flatten.mp hz
  obtain ⟨s, hs, rfl⟩ := List.mem_map.mp hs'
  apply List.mem_flatten.mpr ⟨s, hs, ?_⟩
  cases lim with
  | unlimited => exact hzs'
  | limit n => exact (List.take_sublist n s).mem hzs'

theorem innerEdges_subset {L : Type} (segs : List (List (SegmentEdge L)))
    (lim : EdgeLimit) (z : SegmentEdge L)
    (hz : z ∈ Webgraph.innerEdgesOutgoing segs lim) : z ∈ segs.flatten :=
  preJoin_subset segs lim z (dedupOutgoing_subset _ z hz)

theorem outgoingStored_subset {L : Type} (segs : List (List (SegmentEdge L)))
    (lim : EdgeLimit) (e : SegmentEdge L)
    (he : e ∈ Webgraph.outgoingStored segs lim) : e ∈ segs.flatten := by
  have h1 : e ∈ isort (fun a b => Nat.ble a.to_.sort_key b.to_.sort_key)
      (Webgraph.innerEdgesOutgoing segs lim) := by
    cases lim with
    | unlimited => exact he
    | limit n => exact (List.take_sublist n _).mem he
  exact innerEdges_subset segs lim e (mem_isort.mp h1)

theorem outgoingStored_sorted {L : Type} (segs : List (List (SegmentEdge L)))
    (lim : EdgeLimit) :
    (Webgraph.outgoingStored segs lim).Pairwise
      (fun a b => a.to_.sort_key ≤ b.to_.sort_key) := by
  have hs := isort_pairwise (fun a b : SegmentEdge L => Nat.ble a.to_.sort_key b.to_.sort_key)
    (fun a b => ble_proj_total (fun e => e.to_.sort_key) a b)
    (fun a b c => ble_proj_trans (fun e => e.to_.sort_key) a b c)
    (Webgraph.innerEdgesOutgoing segs lim)
  have hs' := hs.imp (fun h => by simpa [Nat.ble_eq] using h)
  cases lim with
  | unlimited => exact hs'
  | limit n => exact hs'.sublist (List.take_sublist n _)

theorem pairwise_take_drop {α : Type} {R : α → α → Prop} {l : List α}
    (h : l.Pairwise R) (n : Nat) :
    ∀ a ∈ l.take n, ∀ b ∈ l.drop n, R a b := by
  have := List.take_append_drop n l
  rw [← this] at h
  exact (List.pairwise_append.mp h).2.2

theorem countP_lt_of_mem_not {α : Type} (P : α → Bool) :
    ∀ (l : List α) (e : α), e ∈ l → P e = false → l.countP P < l.length := by
  intro l
  induction l with
  | nil => intro e he; cases he
  | cons a t ih =>
    intro e he hpe
    rcases List.mem_cons.mp he with rfl | he
    · rw [List.countP_cons, hpe, if_neg Bool.false_ne_true]
      simp only [List.length_cons, Nat.add_zero]
      have := List.countP_le_length (p := P) (l := t)
      omega
    · rw [List.countP_cons, List.length_cons]
      have := ih e he hpe
      by_cases hpa : P a = true
      · rw [if_pos hpa]
        omega
      · rw [if_neg hpa]
        omega

theorem takeIds_nodup {L : Type} (segs : List (List (SegmentEdge L)))
    (s : List (SegmentEdge L)) (hs : s ∈ segs)
    (hstrict : ∀ s ∈ segs, s.Pairwise (fun a b => a.to_.sort_key < b.to_.sort_key))
    (hkc : ∀ a ∈ segs.flatten, ∀ b ∈ segs.flatten,
      a.to_.id = b.to_.id → a.to_.sort_key = b.to_.sort_key)
    (n : Nat) : ((s.take n).map (fun e => e.to_.id)).Nodup := by
  have hpw : (s.take n).Pairwise (fun a b => a.to_.sort_key < b.to_.sort_key) :=
    (hstrict s hs).sublist (List.take_sublist n s)
  have hmem : ∀ z ∈ s.take n, z ∈ segs.flatten := fun z hz =>
    List.mem_flatten.mpr ⟨s, hs, (List.take_sublist n s).mem hz⟩
  have hne : (s.take n).Pairwise (fun a b => a.to_.id ≠ b.to_.id) := by
    refine List.Pairwise.imp_of_mem ?_ hpw
    intro a b ha hb hlt heq
    exact absurd (hkc a (hmem a ha) b (hmem b hb) heq) (Nat.ne_of_lt hlt)
  exact List.pairwise_map.mpr hne

/-- C5: `outgoing_edges(u, Unlimited)` returns each distinct neighbor
NodeID at most once, for any per-segment adjacency lists (the same edge may
be stored in several uncompacted segments): the per-query dedup sorts the
concatenated per-segment results by the neighbor NodeID and removes
consecutive duplicates keyed on it. -/
theorem Webgraph.outgoing_unlimited_nodup {L : Type}
    (segs : List (List (SegmentEdge L))) :
    ((Webgraph.outgoingStored segs .unlimited).map (fun e => e.to_.id)).Nodup := by
  have hpl := dedupOutgoing_pairwise
    ((segs.map (fun s => Segment.outgoing_edges_with_label s .unlimited)).flatten)
  have hnd : ((Webgraph.innerEdgesOutgoing segs .unlimited).map
      (fun e => e.to_.id)).Nodup := by
    have hne := hpl.imp (fun h => Nat.ne_of_lt h)
    exact List.pairwise_map.mpr hne
  have hperm := isort_perm
    (fun a b : SegmentEdge L => Nat.ble a.to_.sort_key b.to_.sort_key)
    (Webgraph.innerEdgesOutgoing segs .unlimited)
  exact (hperm.map (fun e => e.to_.id)).nodup_iff.mpr hnd

/-- C4: the number of edges returned by `outgoing_edges(u, Limit(n))` is
`min n` of the number returned by `outgoing_edges(u, Unlimited)`.  The
hypotheses are the invariants of committed segments: every adjacency list
is strictly sorted by sort key (the merge machinery drops sort-key
duplicates), and the sort key is a node-level scalar, i.e. a function of
the neighbor id. -/
theorem Webgraph.outgoing_limit_length {L : Type}
    (segs : List (List (SegmentEdge L))) (n : Nat)
    (hstrict : ∀ s ∈ segs, s.Pairwise (fun a b => a.to_.sort_key < b.to_.sort_key))
    (hkc : ∀ a ∈ segs.flatten, ∀ b ∈ segs.flatten,
      a.to_.id = b.to_.id → a.to_.sort_key = b.to_.sort_key) :
    (Webgraph.outgoingStored segs (.limit n)).length =
      min n (Webgraph.outgoingStored segs .unlimited).length := by
  have hlen_pre : (Webgraph.outgoingStored segs (.limit n)).length =
      min n (Webgraph.innerEdgesOutgoing segs (.limit n)).length := by
    show ((isort _ (Webgraph.innerEdgesOutgoing segs (.limit n))).take n).length = _
    rw [List.length_take, (isort_perm _ _).length_eq]
  have hlen_full : (Webgraph.outgoingStored segs .unlimited).length =
      (Webgraph.innerEdgesOutgoing segs .unlimited).length := by
    show (isort _ (Webgraph.innerEdgesOutgoing segs .unlimited)).length = _
    exact (isort_perm _ _).length_eq
  by_cases hall : ∀ s ∈ segs, s.length ≤ n
  · have h1 : segs.map (fun s => Segment.outgoing_edges_with_label s (.limit n)) = segs := by
      have : ∀ s ∈ segs, Segment.outgoing_edges_with_label s (.limit n) = s := by
        intro s hs
        show s.take n = s
        exact List.take_of_length_le (hall s hs)
      exact (List.map_congr_left this).trans (List.map_id segs)
    have h2 : segs.map (fun s => Segment.outgoing_edges_with_label s .unlimited) = segs := by
      have : ∀ s ∈ segs, Segment.outgoing_edges_with_label s .unlimited = s :=
        fun s _ => rfl
      exact (List.map_congr_left this).trans (List.map_id segs)
    have heq : Webgraph.innerEdgesOutgoing segs (.limit n) =
        Webgraph.innerEdgesOutgoing segs .unlimited := by
      unfold Webgraph.innerEdgesOutgoing
      rw [h1, h2]
    rw [hlen_pre, hlen_full, heq]
  · push_neg at hall
    obtain ⟨s, hs, hslen⟩ := hall
    have hW := takeIds_nodup segs s hs hstrict hkc n
    have hWlen : ((s.take n).map (fun e => e.to_.id)).length = n := by
      rw [List.length_map, List.length_take]
      omega
    have hn_pre : n ≤ (Webgraph.innerEdgesOutgoing segs (.limit n)).length := by
      have hsub : ((s.take n).map (fun e => e.to_.id)) ⊆
          ((Webgraph.innerEdgesOutgoing segs (.limit n)).map (fun e => e.to_.id)) := by
        intro i hi
        obtain ⟨w, hw, rfl⟩ := List.mem_map.mp hi
        have hwJ : w ∈ (segs.map
            (fun s => Segment.outgoing_edges_with_label s (.limit n))).flatten :=
          List.mem_flatten.mpr ⟨s.take n, List.mem_map.mpr ⟨s, hs, rfl⟩, hw⟩
        obtain ⟨y, hy, hyid⟩ := dedupOutgoing_coverage _ w hwJ
        exact List.mem_map.mpr ⟨y, hy, hyid⟩
      have hle := (hW.subperm hsub).length_le
      rw [hWlen, List.length_map] at hle
      exact hle
    have hn_full : n ≤ (Webgraph.innerEdgesOutgoing segs .unlimited).length := by
      have hsub : ((s.take n).map (fun e => e.to_.id)) ⊆
          ((Webgraph.innerEdgesOutgoing segs .unlimited).map (fun e => e.to_.id)) := by
        intro i hi
        obtain ⟨w, hw, rfl⟩ := List.mem_map.mp hi
        have hwJ : w ∈ (segs.map
            (fun s => Segment.outgoing_edges_with_label s .unlimited)).flatten :=
          List.mem_flatten.mpr ⟨s, List.mem_map.mpr ⟨s, hs, rfl⟩,
            (List.take_sublist n s).mem hw⟩
        obtain ⟨y, hy, hyid⟩ := dedupOutgoing_coverage _ w hwJ
        exact List.mem_map.mpr ⟨y, hy, hyid⟩
      have hle := (hW.subperm hsub).length_le
      rw [hWlen, List.length_map] at hle
      exact hle
    rw [hlen_pre, hlen_full]
    omega

/-- C3: the edge lists returned by the outgoing query are sorted ascending
by the neighbor sort key for every limit, and `Limit(n)` returns stored
edges of the graph that are top-k globally: the sort key of any returned
edge is at most the sort key of any stored edge whose neighbor id was not
returned.  The limit is applied to the query result only after
cross-segment concatenation, dedup and the final sort (the per-segment
decode-up-to-limit is a pre-filter that cannot change this, which is what
the theorem verifies).  Hypotheses as in the limit-length theorem. -/
theorem Webgraph.outgoing_topk {L : Type}
    (segs : List (List (SegmentEdge L))) (n : Nat)
    (hstrict : ∀ s ∈ segs, s.Pairwise (fun a b => a.to_.sort_key < b.to_.sort_key))
    (hkc : ∀ a ∈ segs.flatten, ∀ b ∈ segs.flatten,
      a.to_.id = b.to_.id → a.to_.sort_key = b.to_.sort_key) :
    (∀ lim, (Webgraph.outgoingStored segs lim).Pairwise
      (fun a b => a.to_.sort_key ≤ b.to_.sort_key)) ∧
    (∀ e ∈ Webgraph.outgoingStored segs (.limit n), e ∈ segs.flatten) ∧
    (∀ e ∈ Webgraph.outgoingStored segs (.limit n), ∀ x ∈ segs.flatten,
      (∀ e' ∈ Webgraph.outgoingStored segs (.limit n), e'.to_.id ≠ x.to_.id) →
      e.to_.sort_key ≤ x.to_.sort_key) := by
  refine ⟨fun lim => outgoingStored_sorted segs lim,
    fun e he => outgoingStored_subset segs _ e he, ?_⟩
  intro e he x hx hne
  by_contra hgt
  have hlt : x.to_.sort_key < e.to_.sort_key := Nat.lt_of_not_le hgt
  have hFsorted : (isort (fun a b : SegmentEdge L => Nat.ble a.to_.sort_key b.to_.sort_key)
      (Webgraph.innerEdgesOutgoing segs (.limit n))).Pairwise
      (fun a b => a.to_.sort_key ≤ b.to_.sort_key) := by
    have := isort_pairwise (fun a b : SegmentEdge L => Nat.ble a.to_.sort_key b.to_.sort_key)
      (fun a b => ble_proj_total (fun z => z.to_.sort_key) a b)
      (fun a b c => ble_proj_trans (fun z => z.to_.sort_key) a b c)
      (Webgraph.innerEdgesOutgoing segs (.limit n))
    exact this.imp (fun h => by simpa [Nat.ble_eq] using h)
  have he' : e ∈ (isort (fun a b : SegmentEdge L => Nat.ble a.to_.sort_key b.to_.sort_key)
      (Webgraph.innerEdgesOutgoing segs (.limit n))).take n := he
  obtain ⟨s, hs, hxs⟩ := List.mem_flatten.mp hx
  by_cases hc : x ∈ s.take n
  · have hxJ : x ∈ (segs.map
        (fun s => Segment.outgoing_edges_with_label s (.limit n))).flatten :=
      List.mem_flatten.mpr ⟨s.take n, List.mem_map.mpr ⟨s, hs, rfl⟩, hc⟩
    obtain ⟨y, hyD, hyid⟩ := dedupOutgoing_coverage _ x hxJ
    have hyF : y ∈ isort (fun a b : SegmentEdge L => Nat.ble a.to_.sort_key b.to_.sort_key)
        (Webgraph.innerEdgesOutgoing segs (.limit n)) := mem_isort.mpr hyD
    have hykey : y.to_.sort_key = x.to_.sort_key :=
      hkc y (innerEdges_subset segs _ y hyD) x hx hyid
    have hylt : y.to_.sort_key < e.to_.sort_key := by
      rw [hykey]
      exact hlt
    have hyTake : y ∈ (isort (fun a b : SegmentEdge L => Nat.ble a.to_.sort_key b.to_.sort_key)
        (Webgraph.innerEdgesOutgoing segs (.limit n))).take n := by
      rcases List.mem_append.mp (by
          rw [List.take_append_drop n
            (isort (fun a b : SegmentEdge L => Nat.ble a.to_.sort_key b.to_.sort_key)
              (Webgraph.innerEdgesOutgoing segs (.limit n)))]
          exact hyF) with h | h
      · exact h
      · have := pairwise_take_drop hFsorted n e he' y h
        omega
    exact absurd hyid (hne y hyTake)
  · have hslen : n < s.length := by
      by_contra hle
      push_neg at hle
      rw [List.take_of_length_le hle] at hc
      exact hc hxs
    have hxdrop : x ∈ s.drop n := by
      rcases List.mem_append.mp (by rw [List.take_append_drop n s]; exact hxs) with h | h
      · exact absurd h hc
      · exact h
    have hWlt : ∀ w ∈ s.take n, w.to_.sort_key < x.to_.sort_key :=
      fun w hw => pairwise_take_drop (hstrict s hs) n w hw x hxdrop
    have hW := takeIds_nodup segs s hs hstrict hkc n
    have hWlen : ((s.take n).map (fun z => z.to_.id)).length = n := by
      rw [List.length_map, List.length_take]
      omega
    have hsub : ((s.take n).map (fun z => z.to_.id)) ⊆
        (((Webgraph.innerEdgesOutgoing segs (.limit n)).filter
          (fun z => decide (z.to_.sort_key < e.to_.sort_key))).map (fun z => z.to_.id)) := by
      intro i hi
      obtain ⟨w, hw, rfl⟩ := List.mem_map.mp hi
      have hwJ : w ∈ (segs.map
          (fun s => Segment.outgoing_edges_with_label s (.limit n))).flatten :=
        List.mem_flatten.mpr ⟨s.take n, List.mem_map.mpr ⟨s, hs, rfl⟩, hw⟩
      obtain ⟨y, hyD, hyid⟩ := dedupOutgoing_coverage _ w hwJ
      have hwmem : w ∈ segs.flatten :=
        List.mem_flatten.mpr ⟨s, hs, (List.take_sublist n s).mem hw⟩
      have hykey : y.to_.sort_key = w.to_.sort_key :=
        hkc y (innerEdges_subset segs _ y hyD) w hwmem hyid
      have hyP : decide (y.to_.sort_key < e.to_.sort_key) = true := by
        rw [decide_eq_true_eq, hykey]
        exact Nat.lt_trans (hWlt w hw) hlt
      exact List.mem_map.mpr ⟨y, List.mem_filter.mpr ⟨hyD, hyP⟩, hyid⟩
    have hPcnt : n ≤ (isort (fun a b : SegmentEdge L => Nat.ble a.to_.sort_key b.to_.sort_key)
        (Webgraph.innerEdgesOutgoing segs (.limit n))).countP
          (fun z => decide (z.to_.sort_key < e.to_.sort_key)) := by
      have hle := (hW.subperm hsub).length_le
      rw [hWlen, List.length_map] at hle
      rw [(isort_perm (fun a b : SegmentEdge L => Nat.ble a.to_.sort_key b.to_.sort_key)
        (Webgraph.innerEdgesOutgoing segs (.limit n))).countP_eq]
      rw [List.countP_eq_length_filter]
      exact hle
    have hPe : decide (e.to_.sort_key < e.to_.sort_key) = false := by
      simp
    have hsplit : (isort (fun a b : SegmentEdge L => Nat.ble a.to_.sort_key b.to_.sort_key)
        (Webgraph.innerEdgesOutgoing segs (.limit n))).countP
          (fun z => decide (z.to_.sort_key < e.to_.sort_key)) =
        ((isort (fun a b : SegmentEdge L => Nat.ble a.to_.sort_key b.to_.sort_key)
          (Webgraph.innerEdgesOutgoing segs (.limit n))).take n).countP
            (fun z => decide (z.to_.sort_key < e.to_.sort_key)) +
        ((isort (fun a b : SegmentEdge L => Nat.ble a.to_.sort_key b.to_.sort_key)
          (Webgraph.innerEdgesOutgoing segs (.limit n))).drop n).countP
            (fun z => decide (z.to_.sort_key < e.to_.sort_key)) := by
      conv_lhs => rw [← List.take_append_drop n
        (isort (fun a b : SegmentEdge L => Nat.ble a.to_.sort_key b.to_.sort_key)
          (Webgraph.innerEdgesOutgoing segs (.limit n)))]
      exact List.countP_append _ _ _
    have hdrop0 : ((isort (fun a b : SegmentEdge L => Nat.ble a.to_.sort_key b.to_.sort_key)
        (Webgraph.innerEdgesOutgoing segs (.limit n))).drop n).countP
          (fun z => decide (z.to_.sort_key < e.to_.sort_key)) = 0 := by
      rw [List.countP_eq_zero]
      intro z hz
      have := pairwise_take_drop hFsorted n e he' z hz
      simp only [decide_eq_true_eq]
      omega
    have htake : ((isort (fun a b : SegmentEdge L => Nat.ble a.to_.sort_key b.to_.sort_key)
        (Webgraph.innerEdgesOutgoing segs (.limit n))).take n).countP
          (fun z => decide (z.to_.sort_key < e.to_.sort_key)) < n := by
      have hcl := countP_lt_of_mem_not
        (fun z : SegmentEdge L => decide (z.to_.sort_key < e.to_.sort_key)) _ e he' hPe
      have hlen := List.length_take_le n
        (isort (fun a b : SegmentEdge L => Nat.ble a.to_.sort_key b.to_.sort_key)
          (Webgraph.innerEdgesOutgoing segs (.limit n)))
      omega
    omega

/-- Witness for C3 at the S5 scenario: two single-edge segments with
distinct sort keys; the hypotheses hold, the theorem applies, and
`Limit(1)` returns exactly the edge with the smaller sort key. -/
theorem Webgraph.outgoing_topk_witness :
    (∀ s ∈ limitTestSegs, s.Pairwise (fun a b => a.to_.sort_key < b.to_.sort_key)) ∧
    (∀ lim, (Webgraph.outgoingStored limitTestSegs lim).Pairwise
      (fun a b => a.to_.sort_key ≤ b.to_.sort_key)) ∧
    Webgraph.outgoingStored limitTestSegs (.limit 1) =
      [⟨⟨100, 0⟩, ⟨3, 4⟩, "c", 0⟩] :=
  ⟨by decide,
   (Webgraph.outgoing_topk limitTestSegs 1 (by decide) (by decide)).1,
   by decide⟩

/-- Witness for C4 at the S5 scenario: the hypotheses hold, the theorem
applies, and the lengths are 1 = min 1 2. -/
theorem Webgraph.outgoing_limit_length_witness :
    (∀ s ∈ limitTestSegs, s.Pairwise (fun a b => a.to_.sort_key < b.to_.sort_key)) ∧
    (Webgraph.outgoingStored limitTestSegs (.limit 1)).length =
      min 1 (Webgraph.outgoingStored limitTestSegs .unlimited).length ∧
    (Webgraph.outgoingStored limitTestSegs (.limit 1)).length = 1 ∧
    (Webgraph.outgoingStored limitTestSegs .unlimited).length = 2 :=
  ⟨by decide,
   Webgraph.outgoing_limit_length limitTestSegs 1 (by decide) (by decide),
   by decide, by decide⟩

/-- Every step succeeding makes the whole option traversal succeed. -/
theorem optionMap_isSome {α β : Type} (f : α → Option β) :
    ∀ (l : List α), (∀ a ∈ l, (f a).isSome) → (optionMap f l).isSome := by
  intro l
  induction l with
  | nil => intro _; simp [optionMap]
  | cons a t ih =>
    intro h
    have ha := h a (List.mem_cons_self _ _)
    obtain ⟨b, hb⟩ := Option.isSome_iff_exists.mp ha
    have ht := ih (fun x hx => h x (List.mem_cons_of_mem _ hx))
    obtain ⟨r, hr⟩ := Option.isSome_iff_exists.mp ht
    simp [optionMap, hb, hr]

/-- C9: in the `FullEdge`-returning query variants both id2node lookups of
every returned edge are unwrapped: when every NodeID stored in the segments
has a row in the id↔node store the failure branch is unreachable and the
call succeeds, but when a returned edge has an endpoint absent from
id2node the call panics (modelled as `none`) instead of returning an empty
or partial result. -/
theorem Webgraph.outgoing_edges_unwrap :
    (∀ (db : List (NodeID × Node)) (segs : List (List (SegmentEdge String)))
        (lim : EdgeLimit),
      (∀ e ∈ segs.flatten, (id2nodeGet db e.from_.id).isSome ∧
        (id2nodeGet db e.to_.id).isSome) →
      (Webgraph.outgoing_edges db segs lim).isSome) ∧
    Webgraph.outgoing_edges [(1, "a")]
      [[⟨⟨1, 0⟩, ⟨2, 5⟩, "x", 0⟩]] .unlimited = none := by
  constructor
  · intro db segs lim h
    apply optionMap_isSome
    intro e he
    have hmem := outgoingStored_subset segs lim e he
    obtain ⟨hf, ht⟩ := h e hmem
    obtain ⟨f, hf'⟩ := Option.isSome_iff_exists.mp hf
    obtain ⟨t, ht'⟩ := Option.isSome_iff_exists.mp ht
    simp [hf', ht']
  · decide

/-- Witness for C9 at a complete id↔node store: the precondition holds and
the call succeeds. -/
theorem Webgraph.outgoing_edges_unwrap_witness :
    (∀ e ∈ ([[⟨⟨1, 0⟩, ⟨2, 5⟩, "x", 0⟩]] :
        List (List (SegmentEdge String))).flatten,
      (id2nodeGet [(1, "a"), (2, "b")] e.from_.id).isSome ∧
      (id2nodeGet [(1, "a"), (2, "b")] e.to_.id).isSome) ∧
    (Webgraph.outgoing_edges [(1, "a"), (2, "b")]
      [[⟨⟨1, 0⟩, ⟨2, 5⟩, "x", 0⟩]] .unlimited).isSome :=
  ⟨by decide,
   Webgraph.outgoing_edges_unwrap.1 [(1, "a"), (2, "b")]
     [[⟨⟨1, 0⟩, ⟨2, 5⟩, "x", 0⟩]] .unlimited (by decide)⟩

/-- C8: whenever graph metadata is persisted, the written string is the
pretty-printed serde JSON of `Meta`, whose single object key is spelled
`comitted_segments` (one m) exactly as declared on the struct; saved
documents parse back through the modelled `serde_json` with the committed
list intact under that field name. -/
theorem Meta.save_comitted_field :
    (∀ m : Meta, Meta.save m = jsonPretty 0 (Meta.serializeJson m) ∧
      (Meta.serializeJson m).objKeys = ["comitted_segments"]) ∧
    metaFromStr (Meta.save ⟨[]⟩) = some ⟨[]⟩ ∧
    metaFromStr (Meta.save ⟨["uuid1", "uuid2"]⟩) = some ⟨["uuid1", "uuid2"]⟩ :=
  ⟨fun m => ⟨rfl, rfl⟩, by decide, by decide⟩

/-- C10: `Meta::open` does not error on malformed content: a missing file
(created empty and read back as the empty string), an empty file, or
content `serde_json` cannot parse into the `Meta` shape all silently
produce the default `Meta` with an empty `comitted_segments` list. -/
theorem Meta.open_malformed_default (content : Option String)
    (h : content = none ∨ content = some "" ∨
      metaFromStr (content.getD "") = none) :
    Meta.open_ content = ⟨[]⟩ := by
  rcases h with rfl | rfl | h
  · decide
  · decide
  · unfold Meta.open_
    rw [h]
    rfl

/-- Witness for C10 at unparseable content. -/
theorem Meta.open_malformed_default_witness :
    (metaFromStr "not json" = none) ∧ Meta.open_ (some "not json") = ⟨[]⟩ :=
  ⟨by decide,
   Meta.open_malformed_default (some "not json") (Or.inr (Or.inr (by decide)))⟩

/-! ### Lemmas about the filesystem model -/

theorem underDir_iff : ∀ (p q : FsPath), underDir p q = true ↔ ∃ r, q = p ++ r := by
  intro p
  induction p with
  | nil => intro q; simp [underDir]
  | cons a p' ih =>
    intro q
    cases q with
    | nil =>
      simp only [underDir]
      constructor
      · intro h; cases h
      · rintro ⟨r, hr⟩; cases hr
    | cons b q' =>
      simp only [underDir, Bool.and_eq_true, beq_iff_eq]
      rw [ih q']
      constructor
      · rintro ⟨rfl, r, rfl⟩
        exact ⟨r, rfl⟩
      · rintro ⟨r, hr⟩
        injection hr with h1 h2
        exact ⟨h1.symm, r, h2⟩

theorem underDir_refl (p : FsPath) : underDir p p = true :=
  (underDir_iff p p).mpr ⟨[], by simp⟩

theorem underDir_append (p q : FsPath) : underDir p (p ++ q) = true :=
  (underDir_iff p (p ++ q)).mpr ⟨q, rfl⟩

theorem underDir_trans {p q r : FsPath} (h1 : underDir p q = true)
    (h2 : underDir q r = true) : underDir p r = true := by
  obtain ⟨u, rfl⟩ := (underDir_iff p q).mp h1
  obtain ⟨v, rfl⟩ := (underDir_iff (p ++ u) _).mp h2
  exact (underDir_iff p _).mpr ⟨u ++ v, by simp⟩

theorem underDir_length_le {p q : FsPath} (h : underDir p q = true) :
    p.length ≤ q.length := by
  obtain ⟨r, rfl⟩ := (underDir_iff p q).mp h
  simp

theorem underDir_eq_of_length_le {p q : FsPath} (h : underDir p q = true)
    (hlen : q.length ≤ p.length) : p = q := by
  obtain ⟨r, rfl⟩ := (underDir_iff p q).mp h
  have : r = [] := by
    rw [List.length_append] at hlen
    exact List.length_eq_zero.mp (by omega)
  simp [this]

theorem underDir_comparable : ∀ (r p q : FsPath), underDir p r = true →
    underDir q r = true → underDir p q = true ∨ underDir q p = true := by
  intro r
  induction r with
  | nil =>
    intro p q hp hq
    obtain ⟨u, hu⟩ := (underDir_iff p []).mp hp
    obtain ⟨v, hv⟩ := (underDir_iff q []).mp hq
    rcases List.append_eq_nil.mp hu.symm with ⟨rfl, -⟩
    simp [underDir]
  | cons c r' ih =>
    intro p q hp hq
    cases p with
    | nil => exact Or.inl (by simp [underDir])
    | cons a p' =>
      cases q with
      | nil => exact Or.inr (by simp [underDir])
      | cons b q' =>
        simp only [underDir, Bool.and_eq_true, beq_iff_eq] at hp hq ⊢
        obtain ⟨rfl, hp'⟩ := hp
        obtain ⟨rfl, hq'⟩ := hq
        rcases ih p' q' hp' hq' with h | h
        · exact Or.inl ⟨rfl, h⟩
        · exact Or.inr ⟨rfl, h⟩

theorem World.readFile_writeFile (w : World) (p : FsPath) (c : String) :
    (w.writeFile p c).readFile p = some c := by
  unfold World.readFile World.writeFile
  rw [List.find?_cons_of_pos _ (by simp)]
  rfl

/-- C6: after `merge_all_segments` returns Ok, the façade's segment list
holds exactly one segment whose id is the freshly generated UUID — an id
not previously in the committed list — and `meta.comitted_segments` lists
only that id and is saved to `metadata.json`. -/
theorem WebgraphState.merge_all_segments_single (g : WebgraphState) (w : World)
    (newId : String) (hfresh : newId ∉ g.meta.comitted_segments) :
    (g.merge_all_segments newId w).1.segments.map SegmentH.id = [newId] ∧
    (g.merge_all_segments newId w).1.segments.length = 1 ∧
    (g.merge_all_segments newId w).1.meta = ⟨[newId]⟩ ∧
    newId ∉ g.meta.comitted_segments ∧
    (g.merge_all_segments newId w).2.readFile
        ((g.merge_all_segments newId w).1.path ++ ["metadata.json"]) =
      some (Meta.save ⟨[newId]⟩) := by
  refine ⟨rfl, rfl, rfl, hfresh, ?_⟩
  exact World.readFile_writeFile _ _ _

/-- Witness for C6 at a one-segment graph with a fresh UUID. -/
theorem WebgraphState.merge_all_segments_single_witness :
    ("seg-new" ∉ (Meta.mk ["old1"]).comitted_segments) ∧
    ((WebgraphState.mk ["root"] [⟨"old1", ["root", "segments", "old1"]⟩]
        ⟨[(1, "a")], true⟩ ⟨["old1"]⟩).merge_all_segments "seg-new"
        ⟨[["root"], ["root", "segments"], ["root", "segments", "old1"]], []⟩).1.segments.map
      SegmentH.id = ["seg-new"] ∧
    ((WebgraphState.mk ["root"] [⟨"old1", ["root", "segments", "old1"]⟩]
        ⟨[(1, "a")], true⟩ ⟨["old1"]⟩).merge_all_segments "seg-new"
        ⟨[["root"], ["root", "segments"], ["root", "segments", "old1"]], []⟩).1.meta =
      ⟨["seg-new"]⟩ :=
  ⟨by decide,
   (WebgraphState.merge_all_segments_single
     (WebgraphState.mk ["root"] [⟨"old1", ["root", "segments", "old1"]⟩]
       ⟨[(1, "a")], true⟩ ⟨["old1"]⟩)
     ⟨[["root"], ["root", "segments"], ["root", "segments", "old1"]], []⟩
     "seg-new" (by decide)).1,
   (WebgraphState.merge_all_segments_single
     (WebgraphState.mk ["root"] [⟨"old1", ["root", "segments", "old1"]⟩]
       ⟨[(1, "a")], true⟩ ⟨["old1"]⟩)
     ⟨[["root"], ["root", "segments"], ["root", "segments", "old1"]], []⟩
     "seg-new" (by decide)).2.2.1⟩

theorem absorb_fold_state :
    ∀ (segsO : List SegmentH) (g : WebgraphState) (w : World),
      (segsO.foldl WebgraphState.absorbSegment (g, w)).1.path = g.path ∧
      (segsO.foldl WebgraphState.absorbSegment (g, w)).1.id2node = g.id2node ∧
      (segsO.foldl WebgraphState.absorbSegment (g, w)).1.meta =
        ⟨g.meta.comitted_segments ++ segsO.map SegmentH.id⟩ ∧
      (segsO.foldl WebgraphState.absorbSegment (g, w)).1.segments =
        g.segments ++ segsO.map (fun s => ⟨s.id, (g.path ++ ["segments"]) ++ [s.id]⟩) := by
  intro segsO
  induction segsO with
  | nil =>
    intro g w
    refine ⟨rfl, rfl, ?_, by simp⟩
    show g.meta = ⟨g.meta.comitted_segments ++ []⟩
    rw [List.append_nil]
  | cons s rest ih =>
    intro g w
    obtain ⟨ih1, ih2, ih3, ih4⟩ := ih
      { g with
          meta := ⟨g.meta.comitted_segments ++ [s.id]⟩,
          segments := g.segments ++ [⟨s.id, (g.path ++ ["segments"]) ++ [s.id]⟩] }
      (w.rename s.path ((g.path ++ ["segments"]) ++ [s.id]))
    refine ⟨ih1, ih2, ?_, ?_⟩
    · rw [show ((s :: rest).foldl WebgraphState.absorbSegment (g, w)).1.meta =
          (rest.foldl WebgraphState.absorbSegment
            ({ g with
                meta := ⟨g.meta.comitted_segments ++ [s.id]⟩,
                segments := g.segments ++ [⟨s.id, (g.path ++ ["segments"]) ++ [s.id]⟩] },
              w.rename s.path ((g.path ++ ["segments"]) ++ [s.id]))).1.meta from rfl,
        ih3]
      simp [List.append_assoc]
    · rw [show ((s :: rest).foldl WebgraphState.absorbSegment (g, w)).1.segments =
          (rest.foldl WebgraphState.absorbSegment
            ({ g with
                meta := ⟨g.meta.comitted_segments ++ [s.id]⟩,
                segments := g.segments ++ [⟨s.id, (g.path ++ ["segments"]) ++ [s.id]⟩] },
              w.rename s.path ((g.path ++ ["segments"]) ++ [s.id]))).1.segments from rfl,
        ih4]
      simp [List.append_assoc]

theorem absorb_fold_dirs (selfPath otherPath : FsPath)
    (hd1 : underDir selfPath otherPath = false)
    (hd2 : underDir otherPath selfPath = false) :
    ∀ (segsO : List SegmentH) (g : WebgraphState) (w : World),
      g.path = selfPath →
      (∀ s ∈ segsO, s.path = otherPath ++ ["segments", s.id]) →
      (segsO.map SegmentH.id).Nodup →
      (∀ s ∈ segsO, s.path ∈ w.dirs) →
      (∀ q, underDir selfPath q = true → q ∈ w.dirs →
        q ∈ (segsO.foldl WebgraphState.absorbSegment (g, w)).2.dirs) ∧
      (∀ s ∈ segsO, ((selfPath ++ ["segments"]) ++ [s.id]) ∈
        (segsO.foldl WebgraphState.absorbSegment (g, w)).2.dirs) := by
  intro segsO
  induction segsO with
  | nil =>
    intro g w hgpath hpaths hnodup hexist
    exact ⟨fun q _ hq => hq, fun s hs => absurd hs (List.not_mem_nil s)⟩
  | cons s rest ih =>
    intro g w hgpath hpaths hnodup hexist
    subst hgpath
    have hspath : s.path = otherPath ++ ["segments", s.id] :=
      hpaths s (List.mem_cons_self _ _)
    have hsid : s.id ∉ rest.map SegmentH.id := (List.nodup_cons.mp hnodup).1
    have hkeep : ∀ q ∈ w.dirs, underDir s.path q = false →
        q ∈ (w.rename s.path ((g.path ++ ["segments"]) ++ [s.id])).dirs := by
      intro q hq hnq
      refine List.mem_map.mpr ⟨q, hq, ?_⟩
      rw [if_neg (by rw [hnq]; exact Bool.false_ne_true)]
    have hmove : s.path ∈ w.dirs →
        ((g.path ++ ["segments"]) ++ [s.id]) ∈
          (w.rename s.path ((g.path ++ ["segments"]) ++ [s.id])).dirs := by
      intro hmem
      refine List.mem_map.mpr ⟨s.path, hmem, ?_⟩
      rw [if_pos (underDir_refl s.path), List.drop_length, List.append_nil]
    have hrest_exist : ∀ s' ∈ rest,
        s'.path ∈ (w.rename s.path ((g.path ++ ["segments"]) ++ [s.id])).dirs := by
      intro s' hs'
      have hs'path : s'.path = otherPath ++ ["segments", s'.id] :=
        hpaths s' (List.mem_cons_of_mem _ hs')
      apply hkeep s'.path (hexist s' (List.mem_cons_of_mem _ hs'))
      cases h : underDir s.path s'.path with
      | false => rfl
      | true =>
        exfalso
        have hlen : s'.path.length ≤ s.path.length := by
          rw [hspath, hs'path]
          simp
        have heq := underDir_eq_of_length_le h hlen
        rw [hspath, hs'path] at heq
        have hids : s.id = s'.id := by
          have h2 := List.append_cancel_left heq
          injection h2 with _ h3
          injection h3 with h4 _
        exact hsid (List.mem_map.mpr ⟨s', hs', hids.symm⟩)
    have hstep_pres : ∀ q, underDir g.path q = true → q ∈ w.dirs →
        q ∈ (w.rename s.path ((g.path ++ ["segments"]) ++ [s.id])).dirs := by
      intro q hsq hq
      apply hkeep q hq
      cases h : underDir s.path q with
      | false => rfl
      | true =>
        exfalso
        have ho : underDir otherPath q = true := by
          refine underDir_trans ?_ h
          rw [hspath]
          exact underDir_append otherPath _
        rcases underDir_comparable q g.path otherPath hsq ho with hc | hc
        · rw [hc] at hd1; cases hd1
        · rw [hc] at hd2; cases hd2
    obtain ⟨ihp, ihm⟩ := ih ((WebgraphState.absorbSegment (g, w) s)).1
      (w.rename s.path ((g.path ++ ["segments"]) ++ [s.id]))
      rfl
      (fun s' hs' => hpaths s' (List.mem_cons_of_mem _ hs'))
      (List.nodup_cons.mp hnodup).2
      hrest_exist
    constructor
    · intro q hsq hq
      exact ihp q hsq (hstep_pres q hsq hq)
    · intro s' hs'
      rcases List.mem_cons.mp hs' with heq | hs'
      · subst heq
        apply ihp ((g.path ++ ["segments"]) ++ [s'.id])
        · exact (underDir_iff g.path _).mpr
            ⟨["segments"] ++ [s'.id], (List.append_assoc _ _ _)⟩
        · exact hmove (hexist s' (List.mem_cons_self _ _))
      · exact ihm s' hs'

/-- C7: `Webgraph::merge(other)` (the Ok path) unions other's id2node rows
into self's and flushes the store, moves each of other's segment
directories into `self.path/segments/` by rename, appends exactly other's
segment ids to `meta.comitted_segments` leaving the pre-existing entries
unchanged, deletes other's directory — afterwards no directory or file
under `other.path` remains, so `other.path` is no longer a valid graph
directory — and rewrites `metadata.json`.  Hypotheses: the two graph roots
are not nested, other's segments live under `other.path/segments/` with
distinct ids, and their directories exist. -/
theorem WebgraphState.merge_spec (self other : WebgraphState) (w : World)
    (hd1 : underDir self.path other.path = false)
    (hd2 : underDir other.path self.path = false)
    (hpaths : ∀ s ∈ other.segments, s.path = other.path ++ ["segments", s.id])
    (hnodup : (other.segments.map SegmentH.id).Nodup)
    (hexist : ∀ s ∈ other.segments, s.path ∈ w.dirs) :
    (WebgraphState.merge self other w).1.id2node.entries =
      self.id2node.entries ++ other.id2node.entries.filter
        (fun kv => (id2nodeGet self.id2node.entries kv.1).isNone) ∧
    (WebgraphState.merge self other w).1.id2node.flushed = true ∧
    (WebgraphState.merge self other w).1.meta.comitted_segments =
      self.meta.comitted_segments ++ other.segments.map SegmentH.id ∧
    (WebgraphState.merge self other w).1.segments =
      self.segments ++ other.segments.map
        (fun s => ⟨s.id, self.path ++ ["segments", s.id]⟩) ∧
    (∀ s ∈ other.segments,
      (self.path ++ ["segments", s.id]) ∈ (WebgraphState.merge self other w).2.dirs) ∧
    (∀ q ∈ (WebgraphState.merge self other w).2.dirs,
      underDir other.path q = false) ∧
    (∀ f ∈ (WebgraphState.merge self other w).2.files,
      f.1 = self.path ++ ["metadata.json"] ∨ underDir other.path f.1 = false) ∧
    (WebgraphState.merge self other w).2.readFile (self.path ++ ["metadata.json"]) =
      some (Meta.save
        ⟨self.meta.comitted_segments ++ other.segments.map SegmentH.id⟩) := by
  obtain ⟨hp, hi, hm, hsg⟩ := absorb_fold_state other.segments
    { self with id2node := (self.id2node.mergeDb other.id2node).flush } w
  obtain ⟨hpres, hmoved⟩ := absorb_fold_dirs self.path other.path hd1 hd2
    other.segments { self with id2node := (self.id2node.mergeDb other.id2node).flush }
    w rfl hpaths hnodup hexist
  have hP : (other.segments.foldl WebgraphState.absorbSegment
      ({ self with id2node := (self.id2node.mergeDb other.id2node).flush }, w)).1.path =
      self.path := hp
  have hM : (other.segments.foldl WebgraphState.absorbSegment
      ({ self with id2node := (self.id2node.mergeDb other.id2node).flush }, w)).1.meta =
      ⟨self.meta.comitted_segments ++ other.segments.map SegmentH.id⟩ := hm
  refine ⟨?_, ?_, ?_, ?_, ?_, ?_, ?_, ?_⟩
  · show (other.segments.foldl WebgraphState.absorbSegment
      ({ self with id2node := (self.id2node.mergeDb other.id2node).flush }, w)).1.id2node.entries = _
    rw [hi]
    rfl
  · show (other.segments.foldl WebgraphState.absorbSegment
      ({ self with id2node := (self.id2node.mergeDb other.id2node).flush }, w)).1.id2node.flushed = _
    rw [hi]
    rfl
  · show (other.segments.foldl WebgraphState.absorbSegment
      ({ self with id2node := (self.id2node.mergeDb other.id2node).flush }, w)).1.meta.comitted_segments = _
    rw [hM]
  · show (other.segments.foldl WebgraphState.absorbSegment
      ({ self with id2node := (self.id2node.mergeDb other.id2node).flush }, w)).1.segments = _
    rw [hsg]
    show self.segments ++ _ = self.segments ++ _
    congr 1
    apply List.map_congr_left
    intro s hs
    show SegmentH.mk s.id ((self.path ++ ["segments"]) ++ [s.id]) = _
    rw [List.append_assoc, List.singleton_append]
  · intro s hs
    have h1 := hmoved s hs
    rw [List.append_assoc, List.singleton_append] at h1
    have hno : underDir other.path (self.path ++ ["segments", s.id]) = false := by
      cases hcase : underDir other.path (self.path ++ ["segments", s.id]) with
      | false => rfl
      | true =>
        exfalso
        have hself : underDir self.path (self.path ++ ["segments", s.id]) = true :=
          underDir_append _ _
        rcases underDir_comparable _ self.path other.path hself hcase with hc | hc
        · rw [hc] at hd1; cases hd1
        · rw [hc] at hd2; cases hd2
    show (self.path ++ ["segments", s.id]) ∈ List.filter _ _
    exact List.mem_filter.mpr ⟨h1, by rw [hno]; rfl⟩
  · intro q hq
    have hq' : q ∈ List.filter (fun p => !underDir other.path p)
        (other.segments.foldl WebgraphState.absorbSegment
          ({ self with id2node := (self.id2node.mergeDb other.id2node).flush }, w)).2.dirs := hq
    have := (List.mem_filter.mp hq').2
    simpa using this
  · intro f hf
    have hf' : f ∈ ((other.segments.foldl WebgraphState.absorbSegment
          ({ self with id2node := (self.id2node.mergeDb other.id2node).flush },
            w)).1.path ++ ["metadata.json"],
        Meta.save (other.segments.foldl WebgraphState.absorbSegment
          ({ self with id2node := (self.id2node.mergeDb other.id2node).flush },
            w)).1.meta) ::
        List.filter (fun g =>
          g.1 != (other.segments.foldl WebgraphState.absorbSegment
            ({ self with id2node := (self.id2node.mergeDb other.id2node).flush },
              w)).1.path ++ ["metadata.json"])
          (List.filter (fun g => !underDir other.path g.1)
            (other.segments.foldl WebgraphState.absorbSegment
              ({ self with id2node := (self.id2node.mergeDb other.id2node).flush },
                w)).2.files) := hf
    rcases List.mem_cons.mp hf' with heq | hmemf
    · left
      rw [heq, hP]
    · right
      have := (List.mem_filter.mp (List.mem_filter.mp hmemf).1).2
      simpa using this
  · show (World.writeFile ((other.segments.foldl WebgraphState.absorbSegment
        ({ self with id2node := (self.id2node.mergeDb other.id2node).flush },
          w)).1.path ++ ["metadata.json"])
      (Meta.save (other.segments.foldl WebgraphState.absorbSegment
        ({ self with id2node := (self.id2node.mergeDb other.id2node).flush },
          w)).1.meta) _).readFile (self.path ++ ["metadata.json"]) = _
    rw [hP, hM]
    exact World.readFile_writeFile _ _ _

/-- Witness for C7 at concrete one-segment graphs rooted at disjoint
directories: every hypothesis holds and the merged façade's committed list
is self's entries followed by other's segment ids. -/
theorem WebgraphState.merge_spec_witness :
    (underDir (["self"] : FsPath) ["other"] = false) ∧
    (underDir (["other"] : FsPath) ["self"] = false) ∧
    (∀ s ∈ (WebgraphState.mk ["other"] [⟨"o1", ["other", "segments", "o1"]⟩]
        ⟨[(2, "b")], true⟩ ⟨["o1"]⟩).segments,
      s.path = ["other"] ++ ["segments", s.id]) ∧
    ((WebgraphState.merge
        (WebgraphState.mk ["self"] [⟨"s1", ["self", "segments", "s1"]⟩]
          ⟨[(1, "a")], true⟩ ⟨["s1"]⟩)
        (WebgraphState.mk ["other"] [⟨"o1", ["other", "segments", "o1"]⟩]
          ⟨[(2, "b")], true⟩ ⟨["o1"]⟩)
        (World.mk [["self"], ["self", "segments"], ["self", "segments", "s1"],
            ["other"], ["other", "segments"], ["other", "segments", "o1"]]
          [(["other", "metadata.json"], "old")])).1.meta.comitted_segments =
      (WebgraphState.mk ["self"] [⟨"s1", ["self", "segments", "s1"]⟩]
          ⟨[(1, "a")], true⟩ ⟨["s1"]⟩).meta.comitted_segments ++
        (WebgraphState.mk ["other"] [⟨"o1", ["other", "segments", "o1"]⟩]
          ⟨[(2, "b")], true⟩ ⟨["o1"]⟩).segments.map SegmentH.id) :=
  ⟨by decide, by decide, by decide,
   (WebgraphState.merge_spec
     (WebgraphState.mk ["self"] [⟨"s1", ["self", "segments", "s1"]⟩]
       ⟨[(1, "a")], true⟩ ⟨["s1"]⟩)
     (WebgraphState.mk ["other"] [⟨"o1", ["other", "segments", "o1"]⟩]
       ⟨[(2, "b")], true⟩ ⟨["o1"]⟩)
     (World.mk [["self"], ["self", "segments"], ["self", "segments", "s1"],
         ["other"], ["other", "segments"], ["other", "segments", "o1"]]
       [(["other", "metadata.json"], "old")])
     (by decide) (by decide) (by decide) (by decide) (by decide)).2.2.1⟩

end Stract
